import Mathlib

/-!
Banker's algorithm (`bank.h`, `bankers.c`)

A shallow embedding of the resource ledger declared in `bank.h` and of the
functions `safety_test`, `request_resources` and `release_resources` of
`bankers.c`, followed by theorems about them.

Modelling conventions.

* A C `int` is a 32-bit two's complement number, modelled by an `Int` between
  `INT_MIN` and `INT_MAX`.  The result of every `+`, `-`, `+=` and `-=` that
  `safety_test`, `request_resources` and `release_resources` perform is wrapped
  to that range by `wrapInt`, as the compiled program does.  The `+ 1` of the
  customer loop follows a remainder and is kept exact: for a non-negative
  `rand()` and a bound that is a positive `int` it cannot leave the range.
* The global arrays are total functions on `Fin NUMBER_OF_CUSTOMERS` and
  `Fin NUMBER_OF_RESOURCES`; an array write is `Function.update`.
* Every `for` loop is a left fold over `List.finRange`, in index order, whose
  step is the loop body.  A loop left by `break` or `return` is a recursion over
  the same index list that stops at the first index taking the exit.
* The `while` loop of `safety_test` is a recursion on a pass budget; running out
  of budget is reported as `none`, and the budget given by `safety_test` is
  proved to be enough.
-/

namespace Bankers

/-- The constant `NUMBER_OF_CUSTOMERS` of `bank.h`. -/
abbrev NUMBER_OF_CUSTOMERS : Nat := 5

/-- The constant `NUMBER_OF_RESOURCES` of `bank.h`. -/
abbrev NUMBER_OF_RESOURCES : Nat := 3

/-- An `int[NUMBER_OF_RESOURCES]` array. -/
abbrev Vec : Type := Fin NUMBER_OF_RESOURCES → Int

/-- An `int[NUMBER_OF_CUSTOMERS][NUMBER_OF_RESOURCES]` array. -/
abbrev Mat : Type := Fin NUMBER_OF_CUSTOMERS → Fin NUMBER_OF_RESOURCES → Int

/-- The least value of a C `int`. -/
def INT_MIN : Int := -2147483648

/-- The greatest value of a C `int`. -/
def INT_MAX : Int := 2147483647

/-- The value an `int` computation stores when its exact result is `x`: the
number congruent to `x` modulo `2 ^ 32` that lies between `INT_MIN` and
`INT_MAX`. -/
def wrapInt (x : Int) : Int := (x + 2147483648) % 4294967296 - 2147483648

/-- The exact value `x` is representable as a C `int`. -/
def InIntRange (x : Int) : Prop := INT_MIN ≤ x ∧ x ≤ INT_MAX

instance instDecidableInIntRange (x : Int) : Decidable (InIntRange x) := by
  unfold InIntRange
  infer_instance

/-- The assignment `m[i][j] = x`. -/
def setCell (m : Mat) (i : Fin NUMBER_OF_CUSTOMERS) (j : Fin NUMBER_OF_RESOURCES) (x : Int) : Mat :=
  Function.update m i (Function.update (m i) j x)

/-- The four global arrays of `bank.h`. -/
structure Ledger where
  available : Vec
  maximum : Mat
  allocation : Mat
  need : Mat

/-- The local variables of `safety_test`. -/
structure Locals where
  temp_available : Vec
  temp_need : Mat
  temp_allocation : Mat
  num_finished : Nat
  num_satisfied : Nat

/-- Body of the loop at `bankers.c` lines 263-267. -/
def initStep (s : Ledger) (customer_num : Fin NUMBER_OF_CUSTOMERS) (request : Vec)
    (t : Locals) (i : Fin NUMBER_OF_RESOURCES) : Locals :=
  { t with
    temp_available := Function.update t.temp_available i (wrapInt (s.available i - request i))
    temp_allocation := setCell t.temp_allocation customer_num i (request i) }

/-- Body of the inner loop at `bankers.c` lines 272-276. -/
def copyStep (s : Ledger) (i : Fin NUMBER_OF_CUSTOMERS) (t : Locals)
    (j : Fin NUMBER_OF_RESOURCES) : Locals :=
  { t with
    temp_allocation := setCell t.temp_allocation i j (s.allocation i j)
    temp_need := setCell t.temp_need i j (wrapInt (s.maximum i j - s.allocation i j)) }

/-- Lines 257-279 of `safety_test`: starting from the contents `t0` the local
arrays happen to have, run the two initialisation loops and set `num_finished`
to zero. -/
def initLocals (t0 : Locals) (s : Ledger) (customer_num : Fin NUMBER_OF_CUSTOMERS)
    (request : Vec) : Locals :=
  let t1 := (List.finRange NUMBER_OF_RESOURCES).foldl (initStep s customer_num request) t0
  let t2 := (List.finRange NUMBER_OF_CUSTOMERS).foldl
    (fun t i => (List.finRange NUMBER_OF_RESOURCES).foldl (copyStep s i) t) t1
  { t2 with num_finished := 0 }

/-- The loop at lines 291-298: `is_safe` stays 1 unless some resource `j` has
`temp_need[i][j] > temp_available[j]`, at which point the loop is left. -/
def isSafeScan (t : Locals) (i : Fin NUMBER_OF_CUSTOMERS) : List (Fin NUMBER_OF_RESOURCES) → Bool
  | [] => true
  | j :: js => if t.temp_need i j > t.temp_available j then false else isSafeScan t i js

/-- Body of the loop at lines 303-307. -/
def finishStep (i : Fin NUMBER_OF_CUSTOMERS) (t : Locals) (j : Fin NUMBER_OF_RESOURCES) : Locals :=
  { t with
    temp_available :=
      Function.update t.temp_available j (wrapInt (t.temp_available j + t.temp_allocation i j))
    temp_allocation := setCell t.temp_allocation i j (-1) }

/-- Body of the loop over the customers, lines 286-312. -/
def scanCustomer (t : Locals) (i : Fin NUMBER_OF_CUSTOMERS) : Locals :=
  if t.temp_allocation i ⟨0, by decide⟩ ≠ -1 then
    if isSafeScan t i (List.finRange NUMBER_OF_RESOURCES) then
      let t1 := (List.finRange NUMBER_OF_RESOURCES).foldl (finishStep i) t
      { t1 with num_satisfied := t1.num_satisfied + 1, num_finished := t1.num_finished + 1 }
    else t
  else t

/-- One pass of the `while` body, lines 284-312: reset `num_satisfied` and scan
the customers in index order. -/
def scanPass (t : Locals) : Locals :=
  (List.finRange NUMBER_OF_CUSTOMERS).foldl scanCustomer { t with num_satisfied := 0 }

/-- The `while` loop at lines 282-319, with a budget of passes. -/
def whileLoop : Nat → Locals → Option Int
  | 0, _ => none
  | fuel + 1, t =>
    if t.num_finished < NUMBER_OF_CUSTOMERS then
      let t1 := scanPass t
      if t1.num_satisfied = 0 then some (-1) else whileLoop fuel t1
    else some 0

/-- Contents given to the uninitialised local arrays; every cell is written by
`initLocals` before it is read (see `initLocals_eq`). -/
def blankLocals : Locals :=
  { temp_available := fun _ => 0, temp_need := fun _ _ => 0, temp_allocation := fun _ _ => 0,
    num_finished := 0, num_satisfied := 0 }

/-- The function `safety_test` of `bankers.c`. -/
def safety_test (s : Ledger) (customer_num : Fin NUMBER_OF_CUSTOMERS) (request : Vec) : Option Int :=
  whileLoop (NUMBER_OF_CUSTOMERS + 1) (initLocals blankLocals s customer_num request)

/-- The loop at lines 179-183 of `request_resources`.  The source compares
`request[i]` with `available`, the array itself, which decays to its address;
`exceeds x` stands for the outcome of `x > available`.  The result is `true`
when the loop takes its `return -1`. -/
def availabilityScan (exceeds : Int → Bool) (request : Vec) : List (Fin NUMBER_OF_RESOURCES) → Bool
  | [] => false
  | i :: is => if exceeds (request i) then true else availabilityScan exceeds request is

/-- Body of the loop at lines 190-195. -/
def grantStep (customer_num : Fin NUMBER_OF_CUSTOMERS) (request : Vec) (s : Ledger)
    (i : Fin NUMBER_OF_RESOURCES) : Ledger :=
  { s with
    allocation :=
      setCell s.allocation customer_num i (wrapInt (s.allocation customer_num i + request i))
    need := setCell s.need customer_num i (wrapInt (s.need customer_num i - request i))
    available := Function.update s.available i (wrapInt (s.available i - request i)) }

/-- The function `request_resources` of `bankers.c`: the returned `int` and the
ledger after the call. -/
def request_resources (exceeds : Int → Bool) (s : Ledger) (customer_num : Fin NUMBER_OF_CUSTOMERS)
    (request : Vec) : Option (Int × Ledger) :=
  if availabilityScan exceeds request (List.finRange NUMBER_OF_RESOURCES) then some (-1, s)
  else
    match safety_test s customer_num request with
    | none => none
    | some v =>
      if v = -1 then some (-1, s)
      else some (0, (List.finRange NUMBER_OF_RESOURCES).foldl (grantStep customer_num request) s)

/-- Body of the loop at lines 209-214. -/
def releaseStep (customer_num : Fin NUMBER_OF_CUSTOMERS) (release : Vec) (s : Ledger)
    (i : Fin NUMBER_OF_RESOURCES) : Ledger :=
  { s with
    allocation :=
      setCell s.allocation customer_num i (wrapInt (s.allocation customer_num i - release i))
    available := Function.update s.available i (wrapInt (s.available i + release i))
    need := setCell s.need customer_num i (wrapInt (s.need customer_num i + release i)) }

/-- The function `release_resources` of `bankers.c`: the returned `int` and the
ledger after the call. -/
def release_resources (s : Ledger) (customer_num : Fin NUMBER_OF_CUSTOMERS) (release : Vec) :
    Int × Ledger :=
  (0, (List.finRange NUMBER_OF_RESOURCES).foldl (releaseStep customer_num release) s)

/-- The comparison `x > available` as a 64-bit compiler evaluates it when the
array `available` is placed at address `addr`: the `int` is sign-extended to
pointer width and the two are compared as unsigned 64-bit values. -/
def exceedsAddress (addr : Nat) (x : Int) : Bool :=
  decide (addr < (x % 2 ^ 64).toNat)

/-- Build a vector from three entries. -/
def vec3 (a b c : Int) : Vec := fun j =>
  match j.val with
  | 0 => a
  | 1 => b
  | _ => c

/-- Build a matrix from five rows. -/
def mat5 (r0 r1 r2 r3 r4 : Vec) : Mat := fun i =>
  match i.val with
  | 0 => r0
  | 1 => r1
  | 2 => r2
  | 3 => r3
  | _ => r4

/-- The scenario of the specification embedded in the 5 x 3 ledger: client 0 has
maximum [2,2], allocation [1,0], need [1,2]; client 1 has maximum [1,0] and
holds nothing; available is [2,2]; everything else is zero. -/
def scenario : Ledger :=
  { available := vec3 2 2 0
    maximum := mat5 (vec3 2 2 0) (vec3 1 0 0) (vec3 0 0 0) (vec3 0 0 0) (vec3 0 0 0)
    allocation := mat5 (vec3 1 0 0) (vec3 0 0 0) (vec3 0 0 0) (vec3 0 0 0) (vec3 0 0 0)
    need := mat5 (vec3 1 2 0) (vec3 1 0 0) (vec3 0 0 0) (vec3 0 0 0) (vec3 0 0 0) }


/-! ## Completion orderings -/

/-- Sum of `alloc[k][j]` over the customers `k` of a list. -/
def heldBy (alloc : Mat) (l : List (Fin NUMBER_OF_CUSTOMERS)) (j : Fin NUMBER_OF_RESOURCES) : Int :=
  (l.map (fun k => alloc k j)).sum

/-- The list `l` is a completion ordering for the state `safety_test` simulates
on ledger `s` and vector `request`: it lists every customer once, and each
customer's `maximum - allocation` is covered, in every resource, by
`available - request` plus what the customers before it in `l` hold. -/
def CompletionOrdering (s : Ledger) (request : Vec) (l : List (Fin NUMBER_OF_CUSTOMERS)) : Prop :=
  l.Nodup ∧ (∀ i, i ∈ l) ∧
    ∀ (p : Fin l.length) (j : Fin NUMBER_OF_RESOURCES),
      s.maximum (l.get p) j - s.allocation (l.get p) j ≤
        (s.available j - request j) + heldBy s.allocation (l.take p) j

/-- With `w` free, the customers of the list can finish one after another, each
handing back what it holds. -/
def Chain (need alloc : Mat) : Vec → List (Fin NUMBER_OF_CUSTOMERS) → Prop
  | _, [] => True
  | w, i :: l => (∀ j, need i j ≤ w j) ∧ Chain need alloc (fun j => w j + alloc i j) l

/-- Customer `x` can finish once the customers of `done` have handed back what
they hold. -/
def Ready (w0 : Vec) (alloc need : Mat) (done : List (Fin NUMBER_OF_CUSTOMERS))
    (x : Fin NUMBER_OF_CUSTOMERS) : Prop :=
  ∀ j, need x j ≤ w0 j + heldBy alloc done j

/-- What `temp_available` holds after the customers of the list were marked
finished one after another, starting from `w`: each adds its allocation row with
the `int` addition of line 305. -/
def freeAfter (alloc : Mat) : Vec → List (Fin NUMBER_OF_CUSTOMERS) → Vec
  | w, [] => w
  | w, i :: l => freeAfter alloc (fun j => wrapInt (w j + alloc i j)) l

/-- The customers of the list pass the test of line 293 one after another when
`temp_available` starts as `w` and is updated as line 305 does. -/
def MChain (need alloc : Mat) : Vec → List (Fin NUMBER_OF_CUSTOMERS) → Prop
  | _, [] => True
  | w, i :: l => (∀ j, need i j ≤ w j) ∧ MChain need alloc (fun j => wrapInt (w j + alloc i j)) l

/-- Customer `x` passes the test of line 293 once the customers of `done` have
been marked finished. -/
def MReady (w0 : Vec) (alloc need : Mat) (done : List (Fin NUMBER_OF_CUSTOMERS))
    (x : Fin NUMBER_OF_CUSTOMERS) : Prop :=
  ∀ j, need x j ≤ freeAfter alloc w0 done j

/-- Loop invariant of `safety_test`: `done` lists the customers marked finished,
in the order in which they were marked. -/
def SimInv (w0 : Vec) (alloc need : Mat) (done : List (Fin NUMBER_OF_CUSTOMERS)) (t : Locals) :
    Prop :=
  done.Nodup ∧ MChain need alloc w0 done ∧ t.num_finished = done.length ∧
    (∀ i, i ∈ done → ∀ j, t.temp_allocation i j = -1) ∧
    (∀ i, i ∉ done → t.temp_allocation i = alloc i) ∧
    (∀ j, t.temp_available j = freeAfter alloc w0 done j) ∧
    t.temp_need = need

instance instDecidableCompletionOrdering (s : Ledger) (request : Vec)
    (l : List (Fin NUMBER_OF_CUSTOMERS)) : Decidable (CompletionOrdering s request l) := by
  unfold CompletionOrdering
  infer_instance

/-! ## Ledger invariants -/

/-- The data-model invariants of the specification: every entry is
non-negative and `need = maximum - allocation`. -/
def DataInvariants (s : Ledger) : Prop :=
  (∀ j, 0 ≤ s.available j) ∧ (∀ i j, 0 ≤ s.maximum i j) ∧ (∀ i j, 0 ≤ s.allocation i j) ∧
    (∀ i j, 0 ≤ s.need i j) ∧ (∀ i j, s.need i j = s.maximum i j - s.allocation i j)

instance instDecidableDataInvariants (s : Ledger) : Decidable (DataInvariants s) := by
  unfold DataInvariants
  infer_instance

/-- Units of resource `r` in the system: the sum of `allocation[i][r]` over all
customers plus `available[r]`. -/
def totalUnits (s : Ledger) (r : Fin NUMBER_OF_RESOURCES) : Int :=
  Finset.univ.sum (fun i => s.allocation i r) + s.available r

/-- The initialisation loops of `safety_test` do not overflow: every
`available[j] - request[j]` and every `maximum[i][j] - allocation[i][j]` is
representable as an `int`. -/
def InitInRange (s : Ledger) (request : Vec) : Prop :=
  (∀ j, InIntRange (s.available j - request j)) ∧
    (∀ i j, InIntRange (s.maximum i j - s.allocation i j))

instance instDecidableInitInRange (s : Ledger) (request : Vec) :
    Decidable (InitInRange s request) := by
  unfold InitInRange
  infer_instance

/-- Handing back every allocation does not overflow: for every resource `j`,
`available[j] - request[j]` plus the sum of `allocation[i][j]` over all
customers is at most `INT_MAX`. -/
def SumsInRange (s : Ledger) (request : Vec) : Prop :=
  ∀ j, s.available j - request j + Finset.univ.sum (fun i => s.allocation i j) ≤ INT_MAX

instance instDecidableSumsInRange (s : Ledger) (request : Vec) :
    Decidable (SumsInRange s request) := by
  unfold SumsInRange
  infer_instance

/-- The ledger fits the `int` type: every `maximum` entry and, for every
resource, the units in the system are at most `INT_MAX`. -/
def LedgerFits (s : Ledger) : Prop :=
  (∀ i j, s.maximum i j ≤ INT_MAX) ∧ (∀ j, totalUnits s j ≤ INT_MAX)

instance instDecidableLedgerFits (s : Ledger) : Decidable (LedgerFits s) := by
  unfold LedgerFits
  infer_instance

/-- The all-zero vector. -/
def zeroVec : Vec := fun _ => 0

/-- An address of the array `available`, as used in the examples (a 64-bit
executable that is not position independent keeps its globals near
`0x404000`). -/
def sampleAddress : Nat := 0x404060

/-! ## Sequences of calls -/

/-- A call made by a customer thread while it holds `resourceLock`. -/
inductive Call where
  | request (customer_num : Fin NUMBER_OF_CUSTOMERS) (v : Vec)
  | release (customer_num : Fin NUMBER_OF_CUSTOMERS) (v : Vec)

/-- The ledger after one call. -/
def afterCall (exceeds : Int → Bool) (s : Ledger) : Call → Option Ledger
  | Call.request c v => (request_resources exceeds s c v).map Prod.snd
  | Call.release c v => some (release_resources s c v).2

/-- The ledgers after each call of a sequence, in the order of the calls. -/
def runCalls (exceeds : Int → Bool) : Ledger → List Call → Option (List Ledger)
  | _, [] => some []
  | s, call :: rest =>
    match afterCall exceeds s call with
    | none => none
    | some s1 => (runCalls exceeds s1 rest).map (fun l => s1 :: l)

/-- Every call of the sequence satisfies `P` in the ledger it is made on. -/
def CallsWithin (P : Ledger → Call → Prop) (exceeds : Int → Bool) : Ledger → List Call → Prop
  | _, [] => True
  | s, call :: rest =>
    P s call ∧
      match afterCall exceeds s call with
      | none => True
      | some s1 => CallsWithin P exceeds s1 rest

/-- A request that does not exceed the caller's `need` row, or a release of
non-negative amounts. -/
def BoundedCall (s : Ledger) : Call → Prop
  | Call.request c v => ∀ r, v r ≤ s.need c r
  | Call.release _ v => ∀ r, 0 ≤ v r

instance instDecidableBoundedCall (s : Ledger) (call : Call) : Decidable (BoundedCall s call) := by
  cases call <;> (unfold BoundedCall; infer_instance)

/-- The cells of `allocation` and `need` a call writes stay representable: for
a request `allocation[c][r] + v[r]` and `need[c][r] - v[r]`, for a release
`allocation[c][r] - v[r]` and `need[c][r] + v[r]`. -/
def InRangeCall (s : Ledger) : Call → Prop
  | Call.request c v =>
    ∀ r, InIntRange (s.allocation c r + v r) ∧ InIntRange (s.need c r - v r)
  | Call.release c v =>
    ∀ r, InIntRange (s.allocation c r - v r) ∧ InIntRange (s.need c r + v r)

instance instDecidableInRangeCall (s : Ledger) (call : Call) : Decidable (InRangeCall s call) := by
  cases call <;> (unfold InRangeCall; infer_instance)

/-- A bounded call whose written cells stay representable. -/
def BoundedInRangeCall (s : Ledger) (call : Call) : Prop :=
  BoundedCall s call ∧ InRangeCall s call

instance instDecidableBoundedInRangeCall (s : Ledger) (call : Call) :
    Decidable (BoundedInRangeCall s call) := by
  unfold BoundedInRangeCall
  infer_instance

/-- A call of the shape the customer loop generates: a request between 0 and
the caller's `need` row, or a release between 0 and its `allocation` row. -/
def CustomerCall (s : Ledger) : Call → Prop
  | Call.request c v => ∀ r, 0 ≤ v r ∧ v r ≤ s.need c r
  | Call.release c v => ∀ r, 0 ≤ v r ∧ v r ≤ s.allocation c r

instance instDecidableCustomerCall (s : Ledger) (call : Call) : Decidable (CustomerCall s call) := by
  cases call <;> (unfold CustomerCall; infer_instance)

/-- The start condition of the invariant claims: `0 <= allocation <= maximum`
and `need = maximum - allocation >= 0`. -/
def StartInvariants (s : Ledger) : Prop :=
  (∀ i r, 0 ≤ s.allocation i r ∧ s.allocation i r ≤ s.maximum i r) ∧
    (∀ i r, s.need i r = s.maximum i r - s.allocation i r ∧ 0 ≤ s.need i r)

instance instDecidableStartInvariants (s : Ledger) : Decidable (StartInvariants s) := by
  unfold StartInvariants
  infer_instance

/-- The two bounds claimed after every call: `allocation <= maximum` and
`need >= 0`. -/
def BoundsHold (s : Ledger) : Prop :=
  (∀ i r, s.allocation i r ≤ s.maximum i r) ∧ (∀ i r, 0 ≤ s.need i r)

instance instDecidableBoundsHold (s : Ledger) : Decidable (BoundsHold s) := by
  unfold BoundsHold
  infer_instance

/-- The ledger with the rows of its matrices reordered by a permutation of the
customer indices. -/
def permuteCustomers (p : Equiv.Perm (Fin NUMBER_OF_CUSTOMERS)) (s : Ledger) : Ledger :=
  { available := s.available
    maximum := fun i => s.maximum (p i)
    allocation := fun i => s.allocation (p i)
    need := fun i => s.need (p i) }

/-! ## `safety_test` on the whole memory -/

/-- The memory `safety_test` runs on: the global arrays of `bank.h` and the
function's own local variables. -/
structure Machine where
  ledger : Ledger
  locals : Locals

/-- Body of the loop at lines 263-267, run on the memory. -/
def execInitStep (customer_num : Fin NUMBER_OF_CUSTOMERS) (request : Vec) (m : Machine)
    (i : Fin NUMBER_OF_RESOURCES) : Machine :=
  { m with locals := initStep m.ledger customer_num request m.locals i }

/-- Body of the inner loop at lines 272-276, run on the memory. -/
def execCopyStep (i : Fin NUMBER_OF_CUSTOMERS) (m : Machine) (j : Fin NUMBER_OF_RESOURCES) :
    Machine :=
  { m with locals := copyStep m.ledger i m.locals j }

/-- Lines 257-279, run on the memory. -/
def execInit (m : Machine) (customer_num : Fin NUMBER_OF_CUSTOMERS) (request : Vec) : Machine :=
  let m1 := (List.finRange NUMBER_OF_RESOURCES).foldl (execInitStep customer_num request) m
  let m2 := (List.finRange NUMBER_OF_CUSTOMERS).foldl
    (fun m i => (List.finRange NUMBER_OF_RESOURCES).foldl (execCopyStep i) m) m1
  { m2 with locals := { m2.locals with num_finished := 0 } }

/-- Body of the loop over the customers, lines 286-312, run on the memory. -/
def execScanCustomer (m : Machine) (i : Fin NUMBER_OF_CUSTOMERS) : Machine :=
  { m with locals := scanCustomer m.locals i }

/-- One pass of the `while` body, run on the memory. -/
def execPass (m : Machine) : Machine :=
  (List.finRange NUMBER_OF_CUSTOMERS).foldl execScanCustomer
    { m with locals := { m.locals with num_satisfied := 0 } }

/-- The `while` loop at lines 282-319, run on the memory: the returned `int`
and the memory at the `return`. -/
def execWhile : Nat → Machine → Option (Int × Machine)
  | 0, _ => none
  | fuel + 1, m =>
    if m.locals.num_finished < NUMBER_OF_CUSTOMERS then
      let m1 := execPass m
      if m1.locals.num_satisfied = 0 then some (-1, m1) else execWhile fuel m1
    else some (0, m)

/-- The function `safety_test` run on a memory whose locals hold whatever an
earlier call left in them. -/
def safety_test_exec (m : Machine) (customer_num : Fin NUMBER_OF_CUSTOMERS) (request : Vec) :
    Option (Int × Machine) :=
  execWhile (NUMBER_OF_CUSTOMERS + 1) (execInit m customer_num request)

/-- The `while` loop at lines 282-319 with a count of the passes through its
body. -/
def whileLoopPasses : Nat → Locals → Option (Int × Nat)
  | 0, _ => none
  | fuel + 1, t =>
    if t.num_finished < NUMBER_OF_CUSTOMERS then
      let t1 := scanPass t
      if t1.num_satisfied = 0 then some (-1, 1)
      else (whileLoopPasses fuel t1).map (fun r => (r.1, r.2 + 1))
    else some (0, 0)

/-- The value returned by `safety_test` together with the number of passes its
`while` loop made. -/
def safetyTestPasses (s : Ledger) (customer_num : Fin NUMBER_OF_CUSTOMERS) (request : Vec) :
    Option (Int × Nat) :=
  whileLoopPasses (NUMBER_OF_CUSTOMERS + 1) (initLocals blankLocals s customer_num request)

/-! ## Deadlock scenario and the customer loop -/

/-- The deadlock scenario of the specification embedded in the 5 x 3 ledger:
available is [0,2], client 0 needs [2,2], client 1 needs [1,0], nothing is
held, and everything else is zero. -/
def deadlockScenario : Ledger :=
  { available := vec3 0 2 0
    maximum := mat5 (vec3 2 2 0) (vec3 1 0 0) (vec3 0 0 0) (vec3 0 0 0) (vec3 0 0 0)
    allocation := mat5 (vec3 0 0 0) (vec3 0 0 0) (vec3 0 0 0) (vec3 0 0 0) (vec3 0 0 0)
    need := mat5 (vec3 2 2 0) (vec3 1 0 0) (vec3 0 0 0) (vec3 0 0 0) (vec3 0 0 0) }

/-- A ledger in which no customer can proceed: available is [0,2,0], client 0
needs [2,2,0] and every other client needs [1,0,0]. -/
def blockedLedger : Ledger :=
  { available := vec3 0 2 0
    maximum := mat5 (vec3 2 2 0) (vec3 1 0 0) (vec3 1 0 0) (vec3 1 0 0) (vec3 1 0 0)
    allocation := mat5 (vec3 0 0 0) (vec3 0 0 0) (vec3 0 0 0) (vec3 0 0 0) (vec3 0 0 0)
    need := mat5 (vec3 2 2 0) (vec3 1 0 0) (vec3 1 0 0) (vec3 1 0 0) (vec3 1 0 0) }

/-- The amount drawn at lines 87-92 and 132-137 of `customer`: when the bound
(`need[customerNumber][i]`, or `allocation[customerNumber][i]`) is not zero,
`rand() % bound + 1` with C's truncating `%`, otherwise 0.  `rnd` is the value
returned by `rand()`. -/
def drawAmount (bound rnd : Int) : Int :=
  if bound ≠ 0 then Int.tmod rnd bound + 1 else 0

/-- The loop at lines 84-100 of `customer`, which fills `resources` with the
request; `rnd i` is the value `rand()` returns in iteration `i`. -/
def requestLoop (s : Ledger) (customerNumber : Fin NUMBER_OF_CUSTOMERS)
    (rnd : Fin NUMBER_OF_RESOURCES → Int) (resources : Vec) : Vec :=
  (List.finRange NUMBER_OF_RESOURCES).foldl
    (fun res i => Function.update res i (drawAmount (s.need customerNumber i) (rnd i))) resources

/-- The loop at lines 129-145 of `customer`, which fills `resources` with the
release. -/
def releaseLoop (s : Ledger) (customerNumber : Fin NUMBER_OF_CUSTOMERS)
    (rnd : Fin NUMBER_OF_RESOURCES → Int) (resources : Vec) : Vec :=
  (List.finRange NUMBER_OF_RESOURCES).foldl
    (fun res i => Function.update res i (drawAmount (s.allocation customerNumber i) (rnd i)))
    resources

/-- The three conditions `0 <= allocation <= maximum`,
`need = maximum - allocation` and `available >= 0`. -/
def CustomerInvariants (s : Ledger) : Prop :=
  (∀ i r, 0 ≤ s.allocation i r ∧ s.allocation i r ≤ s.maximum i r) ∧
    (∀ i r, s.need i r = s.maximum i r - s.allocation i r) ∧ (∀ r, 0 ≤ s.available r)

instance instDecidableCustomerInvariants (s : Ledger) : Decidable (CustomerInvariants s) := by
  unfold CustomerInvariants
  infer_instance

/-- The three conditions on a ledger that fits the `int` type. -/
def FittingInvariants (s : Ledger) : Prop :=
  CustomerInvariants s ∧ LedgerFits s

instance instDecidableFittingInvariants (s : Ledger) : Decidable (FittingInvariants s) := by
  unfold FittingInvariants
  infer_instance

/-! ## Ledgers with entries near the ends of the `int` range -/

/-- Available is zero; clients 0 and 1 hold their whole maximum `[2^30,0,0]`;
clients 2, 3 and 4 hold and claim nothing. -/
def twoLargeHolders : Ledger :=
  { available := vec3 0 0 0
    maximum := mat5 (vec3 1073741824 0 0) (vec3 1073741824 0 0) (vec3 0 0 0) (vec3 0 0 0)
      (vec3 0 0 0)
    allocation := mat5 (vec3 1073741824 0 0) (vec3 1073741824 0 0) (vec3 0 0 0) (vec3 0 0 0)
      (vec3 0 0 0)
    need := mat5 (vec3 0 0 0) (vec3 0 0 0) (vec3 0 0 0) (vec3 0 0 0) (vec3 0 0 0) }

/-- Available is `[1,0,0]`; client 0 holds its whole maximum `[INT_MAX,0,0]`;
everything else is zero. -/
def fullClient : Ledger :=
  { available := vec3 1 0 0
    maximum := mat5 (vec3 INT_MAX 0 0) (vec3 0 0 0) (vec3 0 0 0) (vec3 0 0 0) (vec3 0 0 0)
    allocation := mat5 (vec3 INT_MAX 0 0) (vec3 0 0 0) (vec3 0 0 0) (vec3 0 0 0) (vec3 0 0 0)
    need := mat5 (vec3 0 0 0) (vec3 0 0 0) (vec3 0 0 0) (vec3 0 0 0) (vec3 0 0 0) }

/-- Available is `[INT_MIN,0,0]` and everything else is zero. -/
def minAvailable : Ledger :=
  { available := vec3 INT_MIN 0 0
    maximum := mat5 (vec3 0 0 0) (vec3 0 0 0) (vec3 0 0 0) (vec3 0 0 0) (vec3 0 0 0)
    allocation := mat5 (vec3 0 0 0) (vec3 0 0 0) (vec3 0 0 0) (vec3 0 0 0) (vec3 0 0 0)
    need := mat5 (vec3 0 0 0) (vec3 0 0 0) (vec3 0 0 0) (vec3 0 0 0) (vec3 0 0 0) }

/-- Available is `[INT_MAX,0,0]`; client `c` holds its whole maximum `[1,0,0]`;
everything else is zero. -/
def maxAvailable (c : Fin NUMBER_OF_CUSTOMERS) : Ledger :=
  { available := vec3 INT_MAX 0 0
    maximum := fun i => if i = c then vec3 1 0 0 else vec3 0 0 0
    allocation := fun i => if i = c then vec3 1 0 0 else vec3 0 0 0
    need := fun _ => vec3 0 0 0 }

/-! ## `int` arithmetic -/

theorem wrapInt_of_inRange (x : Int) (h : InIntRange x) : wrapInt x = x := by
  simp only [InIntRange, INT_MIN, INT_MAX] at h
  unfold wrapInt
  omega

theorem wrapInt_inRange (x : Int) : InIntRange (wrapInt x) := by
  simp only [InIntRange, INT_MIN, INT_MAX]
  unfold wrapInt
  omega

theorem wrapInt_congruent (x : Int) : (wrapInt x - x) % 4294967296 = 0 := by
  unfold wrapInt
  omega

/-! ## Array writes and the `for` loops -/

theorem setCell_apply (m : Mat) (i k : Fin NUMBER_OF_CUSTOMERS) (j l : Fin NUMBER_OF_RESOURCES)
    (x : Int) : setCell m i j x k l = if k = i ∧ l = j then x else m k l := by
  unfold setCell
  by_cases hk : k = i
  · subst hk
    by_cases hl : l = j
    · subst hl; simp
    · simp [hl]
  · simp [hk]

/-- A fold whose step leaves a component alone leaves it alone. -/
theorem foldl_keep {σ ι β : Type} (proj : σ → β) (step : σ → ι → σ)
    (h : ∀ t i, proj (step t i) = proj t) (L : List ι) (t : σ) :
    proj (L.foldl step t) = proj t := by
  induction L generalizing t with
  | nil => rfl
  | cons a L ih => rw [List.foldl_cons, ih, h]

/-- A fold whose step writes `v i` into cell `i` of a component. -/
theorem foldl_write {σ ι α : Type} [DecidableEq ι] (get : σ → ι → α) (step : σ → ι → σ)
    (v : ι → α) (h : ∀ t i, get (step t i) = Function.update (get t) i (v i))
    (L : List ι) (t : σ) (j : ι) :
    get (L.foldl step t) j = if j ∈ L then v j else get t j := by
  induction L generalizing t with
  | nil => simp
  | cons a L ih =>
    rw [List.foldl_cons, ih, h]
    by_cases hj : j ∈ L
    · simp [hj]
    · by_cases hja : j = a
      · subst hja; simp
      · simp [hj, hja]

theorem finish_fold (i : Fin NUMBER_OF_CUSTOMERS) (L : List (Fin NUMBER_OF_RESOURCES))
    (hL : L.Nodup) (t : Locals) :
    L.foldl (finishStep i) t =
      { t with
        temp_available := fun j =>
          if j ∈ L then wrapInt (t.temp_available j + t.temp_allocation i j)
          else t.temp_available j
        temp_allocation := fun k j => if k = i ∧ j ∈ L then -1 else t.temp_allocation k j } := by
  induction L generalizing t with
  | nil => simp
  | cons a L ih =>
    have ha : a ∉ L := (List.nodup_cons.mp hL).1
    rw [List.foldl_cons, ih (List.nodup_cons.mp hL).2]
    simp only [finishStep, Locals.mk.injEq, and_true, true_and]
    constructor
    · funext j
      by_cases hj : j ∈ L
      · have hja : j ≠ a := fun h => ha (h ▸ hj)
        simp [hj, hja, setCell_apply]
      · by_cases hja : j = a
        · subst hja; simp [hj]
        · simp [hj, hja]
    · funext k j
      by_cases hk : k = i
      · by_cases hj : j ∈ L
        · simp [hk, hj]
        · by_cases hja : j = a
          · simp [hk, hj, hja, setCell_apply]
          · simp [hk, hj, hja, setCell_apply]
      · simp [hk, setCell_apply]

theorem finish_all (i : Fin NUMBER_OF_CUSTOMERS) (t : Locals) :
    (List.finRange NUMBER_OF_RESOURCES).foldl (finishStep i) t =
      { t with
        temp_available := fun j => wrapInt (t.temp_available j + t.temp_allocation i j)
        temp_allocation := fun k j => if k = i then -1 else t.temp_allocation k j } := by
  rw [finish_fold i _ (List.nodup_finRange _) t]
  simp [List.mem_finRange]

theorem copy_row_allocation (s : Ledger) (i : Fin NUMBER_OF_CUSTOMERS) (t : Locals) :
    ((List.finRange NUMBER_OF_RESOURCES).foldl (copyStep s i) t).temp_allocation =
      Function.update t.temp_allocation i (s.allocation i) := by
  funext k
  by_cases hk : k = i
  · subst hk
    funext j
    have h := foldl_write (fun (u : Locals) => u.temp_allocation k) (copyStep s k)
      (fun j => s.allocation k j) (by intro u j; simp [copyStep, setCell]) (List.finRange _) t j
    simpa [List.mem_finRange] using h
  · have h := foldl_keep (fun (u : Locals) => u.temp_allocation k) (copyStep s i)
      (by intro u j; simp [copyStep, setCell, hk]) (List.finRange _) t
    simpa [hk] using h

theorem copy_row_need (s : Ledger) (i : Fin NUMBER_OF_CUSTOMERS) (t : Locals) :
    ((List.finRange NUMBER_OF_RESOURCES).foldl (copyStep s i) t).temp_need =
      Function.update t.temp_need i (fun j => wrapInt (s.maximum i j - s.allocation i j)) := by
  funext k
  by_cases hk : k = i
  · subst hk
    funext j
    have h := foldl_write (fun (u : Locals) => u.temp_need k) (copyStep s k)
      (fun j => wrapInt (s.maximum k j - s.allocation k j))
      (by intro u j; simp [copyStep, setCell])
      (List.finRange _) t j
    simpa [List.mem_finRange] using h
  · have h := foldl_keep (fun (u : Locals) => u.temp_need k) (copyStep s i)
      (by intro u j; simp [copyStep, setCell, hk]) (List.finRange _) t
    simpa [hk] using h

/-- The local arrays after the initialisation loops, whatever they held before:
the write of `request` into row `customer_num` of `temp_allocation` is
overwritten by the copy loop. -/
theorem initLocals_eq (t0 : Locals) (s : Ledger) (c : Fin NUMBER_OF_CUSTOMERS) (request : Vec) :
    (initLocals t0 s c request).temp_available = (fun j => wrapInt (s.available j - request j)) ∧
    (initLocals t0 s c request).temp_allocation = s.allocation ∧
    (initLocals t0 s c request).temp_need =
      (fun i j => wrapInt (s.maximum i j - s.allocation i j)) ∧
    (initLocals t0 s c request).num_finished = 0 := by
  refine ⟨?_, ?_, ?_, rfl⟩
  · funext j
    have h1 := foldl_keep (fun (u : Locals) => u.temp_available)
      (fun t i => (List.finRange NUMBER_OF_RESOURCES).foldl (copyStep s i) t)
      (by intro u i
          exact foldl_keep (fun (u : Locals) => u.temp_available) (copyStep s i)
            (by intro u j; rfl) _ u)
      (List.finRange NUMBER_OF_CUSTOMERS)
      ((List.finRange NUMBER_OF_RESOURCES).foldl (initStep s c request) t0)
    have h2 := foldl_write (fun (u : Locals) => u.temp_available) (initStep s c request)
      (fun j => wrapInt (s.available j - request j)) (by intro u j; rfl) (List.finRange _) t0 j
    simp only [initLocals]
    rw [h1, h2]
    simp [List.mem_finRange]
  · funext i
    have h := foldl_write (fun (u : Locals) => u.temp_allocation)
      (fun t i => (List.finRange NUMBER_OF_RESOURCES).foldl (copyStep s i) t)
      (fun i => s.allocation i) (by intro u i; exact copy_row_allocation s i u)
      (List.finRange NUMBER_OF_CUSTOMERS)
      ((List.finRange NUMBER_OF_RESOURCES).foldl (initStep s c request) t0) i
    simp only [initLocals]
    rw [h]
    simp [List.mem_finRange]
  · funext i
    have h := foldl_write (fun (u : Locals) => u.temp_need)
      (fun t i => (List.finRange NUMBER_OF_RESOURCES).foldl (copyStep s i) t)
      (fun i j => wrapInt (s.maximum i j - s.allocation i j))
      (by intro u i; exact copy_row_need s i u)
      (List.finRange NUMBER_OF_CUSTOMERS)
      ((List.finRange NUMBER_OF_RESOURCES).foldl (initStep s c request) t0) i
    simp only [initLocals]
    rw [h]
    simp [List.mem_finRange]

theorem isSafeScan_iff (t : Locals) (i : Fin NUMBER_OF_CUSTOMERS)
    (L : List (Fin NUMBER_OF_RESOURCES)) :
    isSafeScan t i L = true ↔ ∀ j ∈ L, t.temp_need i j ≤ t.temp_available j := by
  induction L with
  | nil => simp [isSafeScan]
  | cons a L ih =>
    simp only [isSafeScan, List.mem_cons, forall_eq_or_imp]
    by_cases h : t.temp_need i a > t.temp_available a
    · simp only [h, if_true]
      constructor
      · intro hf; exact absurd hf (by simp)
      · intro hh; exact absurd hh.1 (not_le.mpr h)
    · simp only [h, if_false, ih]
      exact ⟨fun hh => ⟨not_lt.mp h, hh⟩, fun hh => hh.2⟩

theorem isSafeScan_all (t : Locals) (i : Fin NUMBER_OF_CUSTOMERS) :
    isSafeScan t i (List.finRange NUMBER_OF_RESOURCES) = true ↔
      ∀ j, t.temp_need i j ≤ t.temp_available j := by
  rw [isSafeScan_iff]
  simp [List.mem_finRange]

/-! ## The simulation loop -/

theorem heldBy_nil (alloc : Mat) (j : Fin NUMBER_OF_RESOURCES) : heldBy alloc [] j = 0 := rfl

theorem heldBy_cons (alloc : Mat) (a : Fin NUMBER_OF_CUSTOMERS) (l : List (Fin NUMBER_OF_CUSTOMERS))
    (j : Fin NUMBER_OF_RESOURCES) : heldBy alloc (a :: l) j = alloc a j + heldBy alloc l j := by
  simp [heldBy]

theorem heldBy_append (alloc : Mat) (l1 l2 : List (Fin NUMBER_OF_CUSTOMERS))
    (j : Fin NUMBER_OF_RESOURCES) :
    heldBy alloc (l1 ++ l2) j = heldBy alloc l1 j + heldBy alloc l2 j := by
  simp [heldBy]

theorem heldBy_mono (alloc : Mat) (j : Fin NUMBER_OF_RESOURCES) (h0 : ∀ k, 0 ≤ alloc k j)
    (l1 l2 : List (Fin NUMBER_OF_CUSTOMERS)) (h1 : l1.Nodup) (h2 : l2.Nodup)
    (hsub : ∀ k ∈ l1, k ∈ l2) : heldBy alloc l1 j ≤ heldBy alloc l2 j := by
  unfold heldBy
  rw [← List.sum_toFinset _ h1, ← List.sum_toFinset _ h2]
  apply Finset.sum_le_sum_of_subset_of_nonneg
  · intro k hk
    exact List.mem_toFinset.mpr (hsub k (List.mem_toFinset.mp hk))
  · intro k _ _
    exact h0 k

theorem chain_append (need alloc : Mat) (l : List (Fin NUMBER_OF_CUSTOMERS))
    (i : Fin NUMBER_OF_CUSTOMERS) (w : Vec) :
    Chain need alloc w (l ++ [i]) ↔
      Chain need alloc w l ∧ ∀ j, need i j ≤ w j + heldBy alloc l j := by
  induction l generalizing w with
  | nil => simp [Chain, heldBy_nil]
  | cons a l ih =>
    have h := ih (fun j => w j + alloc a j)
    simp only [List.cons_append, Chain, heldBy_cons, and_assoc, ← add_assoc]
    exact and_congr_right fun _ => h

theorem chain_iff_positions (need alloc : Mat) (l : List (Fin NUMBER_OF_CUSTOMERS)) (w : Vec) :
    Chain need alloc w l ↔
      ∀ (p : Fin l.length) (j : Fin NUMBER_OF_RESOURCES),
        need (l.get p) j ≤ w j + heldBy alloc (l.take p) j := by
  induction l generalizing w with
  | nil =>
    simp only [Chain, true_iff]
    intro p
    exact absurd p.isLt (by simp)
  | cons a l ih =>
    simp only [Chain, ih]
    constructor
    · rintro ⟨h0, hs⟩ ⟨p, hp⟩ j
      cases p with
      | zero => simpa [heldBy_nil] using h0 j
      | succ q =>
        have := hs ⟨q, by simpa using hp⟩ j
        simpa [heldBy_cons, add_assoc] using this
    · intro h
      constructor
      · intro j
        have := h ⟨0, by simp⟩ j
        simpa [heldBy_nil] using this
      · rintro ⟨q, hq⟩ j
        have := h ⟨q + 1, by simpa using hq⟩ j
        simpa [heldBy_cons, add_assoc] using this

theorem freeAfter_append (alloc : Mat) (l : List (Fin NUMBER_OF_CUSTOMERS))
    (i : Fin NUMBER_OF_CUSTOMERS) :
    ∀ (w : Vec) (j : Fin NUMBER_OF_RESOURCES),
      freeAfter alloc w (l ++ [i]) j = wrapInt (freeAfter alloc w l j + alloc i j) := by
  induction l with
  | nil => intro w j; rfl
  | cons a l ih =>
    intro w j
    simp only [List.cons_append, freeAfter]
    exact ih _ j

theorem mchain_append (need alloc : Mat) (l : List (Fin NUMBER_OF_CUSTOMERS))
    (i : Fin NUMBER_OF_CUSTOMERS) (w : Vec) :
    MChain need alloc w (l ++ [i]) ↔
      MChain need alloc w l ∧ ∀ j, need i j ≤ freeAfter alloc w l j := by
  induction l generalizing w with
  | nil => simp [MChain, freeAfter]
  | cons a l ih =>
    have h := ih (fun j => wrapInt (w j + alloc a j))
    simp only [List.cons_append, MChain, freeAfter, and_assoc]
    exact and_congr_right fun _ => h

/-- Sum of `alloc[i][j]` over all customers bounds the sum over a list without
repetition when the entries are non-negative. -/
theorem heldBy_le_column (alloc : Mat) (j : Fin NUMBER_OF_RESOURCES) (h0 : ∀ k, 0 ≤ alloc k j)
    (l : List (Fin NUMBER_OF_CUSTOMERS)) (hl : l.Nodup) :
    heldBy alloc l j ≤ Finset.univ.sum (fun i => alloc i j) := by
  unfold heldBy
  rw [← List.sum_toFinset _ hl]
  apply Finset.sum_le_sum_of_subset_of_nonneg (Finset.subset_univ _)
  intro k _ _
  exact h0 k

theorem heldBy_nonneg (alloc : Mat) (j : Fin NUMBER_OF_RESOURCES) (h0 : ∀ k, 0 ≤ alloc k j)
    (l : List (Fin NUMBER_OF_CUSTOMERS)) : 0 ≤ heldBy alloc l j := by
  unfold heldBy
  apply List.sum_nonneg
  intro x hx
  obtain ⟨k, _, hk⟩ := List.mem_map.mp hx
  rw [← hk]
  exact h0 k

theorem step_exact (alloc : Mat) (h0 : ∀ k j, 0 ≤ alloc k j) (a : Fin NUMBER_OF_CUSTOMERS)
    (l : List (Fin NUMBER_OF_CUSTOMERS)) (w : Vec) (hlo : ∀ j, INT_MIN ≤ w j)
    (hhi : ∀ j, w j + heldBy alloc (a :: l) j ≤ INT_MAX) :
    (fun j => wrapInt (w j + alloc a j)) = fun j => w j + alloc a j := by
  funext k
  apply wrapInt_of_inRange
  have h1 := hlo k
  have h2 := hhi k
  have h3 := h0 a k
  have h4 := heldBy_nonneg alloc k (fun i => h0 i k) l
  rw [heldBy_cons] at h2
  simp only [InIntRange]
  constructor <;> omega

/-- Without overflow the `int` additions of line 305 give the exact sums. -/
theorem freeAfter_exact (alloc : Mat) (h0 : ∀ k j, 0 ≤ alloc k j)
    (l : List (Fin NUMBER_OF_CUSTOMERS)) :
    ∀ w : Vec, (∀ j, INT_MIN ≤ w j) → (∀ j, w j + heldBy alloc l j ≤ INT_MAX) →
      ∀ j, freeAfter alloc w l j = w j + heldBy alloc l j := by
  induction l with
  | nil => intro w _ _ j; simp [freeAfter, heldBy_nil]
  | cons a l ih =>
    intro w hlo hhi j
    simp only [freeAfter, step_exact alloc h0 a l w hlo hhi]
    rw [ih (fun j => w j + alloc a j) _ _ j, heldBy_cons]
    · ring
    · intro k
      have h1 := hlo k
      have h3 := h0 a k
      show INT_MIN ≤ w k + alloc a k
      omega
    · intro k
      have h2 := hhi k
      rw [heldBy_cons] at h2
      show w k + alloc a k + heldBy alloc l k ≤ INT_MAX
      omega

/-- Without overflow the chain followed by the code is the exact chain. -/
theorem mchain_iff_chain (need alloc : Mat) (h0 : ∀ k j, 0 ≤ alloc k j)
    (l : List (Fin NUMBER_OF_CUSTOMERS)) :
    ∀ w : Vec, (∀ j, INT_MIN ≤ w j) → (∀ j, w j + heldBy alloc l j ≤ INT_MAX) →
      (MChain need alloc w l ↔ Chain need alloc w l) := by
  induction l with
  | nil => intro w _ _; simp [MChain, Chain]
  | cons a l ih =>
    intro w hlo hhi
    simp only [MChain, Chain, step_exact alloc h0 a l w hlo hhi]
    apply and_congr_right
    intro _
    apply ih
    · intro k
      have h1 := hlo k
      have h3 := h0 a k
      show INT_MIN ≤ w k + alloc a k
      omega
    · intro k
      have h2 := hhi k
      rw [heldBy_cons] at h2
      show w k + alloc a k + heldBy alloc l k ≤ INT_MAX
      omega

theorem scanCustomer_skip (w0 : Vec) (alloc need : Mat) (done : List (Fin NUMBER_OF_CUSTOMERS))
    (t : Locals) (i : Fin NUMBER_OF_CUSTOMERS) (hinv : SimInv w0 alloc need done t)
    (h : i ∈ done ∨ alloc i ⟨0, by decide⟩ = -1 ∨ ¬ MReady w0 alloc need done i) :
    scanCustomer t i = t := by
  obtain ⟨_, _, _, hfin, hrest, hav, hneed⟩ := hinv
  unfold scanCustomer
  by_cases hd : i ∈ done
  · simp [hfin i hd]
  · rw [hrest i hd]
    rcases h with h | h | h
    · exact absurd h hd
    · rw [if_neg (not_not.mpr h)]
    · have hns : ¬ (isSafeScan t i (List.finRange NUMBER_OF_RESOURCES) = true) := by
        rw [isSafeScan_all]
        intro hall
        apply h
        intro j
        have := hall j
        rw [hneed, hav j] at this
        exact this
      simp [hns]

theorem scanCustomer_fire (w0 : Vec) (alloc need : Mat) (done : List (Fin NUMBER_OF_CUSTOMERS))
    (t : Locals) (i : Fin NUMBER_OF_CUSTOMERS) (hinv : SimInv w0 alloc need done t)
    (hd : i ∉ done) (h0 : alloc i ⟨0, by decide⟩ ≠ -1) (hr : MReady w0 alloc need done i) :
    SimInv w0 alloc need (done ++ [i]) (scanCustomer t i) ∧
      (scanCustomer t i).num_satisfied = t.num_satisfied + 1 := by
  obtain ⟨hnd, hch, hnum, hfin, hrest, hav, hneed⟩ := hinv
  have hs : isSafeScan t i (List.finRange NUMBER_OF_RESOURCES) = true := by
    rw [isSafeScan_all]
    intro j
    rw [hneed, hav j]
    exact hr j
  have hrow : t.temp_allocation i = alloc i := hrest i hd
  have hne : t.temp_allocation i ⟨0, by decide⟩ ≠ -1 := by rw [hrow]; exact h0
  have hsc : scanCustomer t i =
      { temp_available := fun j => wrapInt (t.temp_available j + t.temp_allocation i j)
        temp_need := t.temp_need
        temp_allocation := fun k j => if k = i then -1 else t.temp_allocation k j
        num_finished := t.num_finished + 1
        num_satisfied := t.num_satisfied + 1 } := by
    unfold scanCustomer
    rw [if_pos hne, if_pos hs, finish_all]
  rw [hsc]
  refine ⟨⟨?_, ?_, ?_, ?_, ?_, ?_, hneed⟩, rfl⟩
  · rw [List.nodup_append]
    refine ⟨hnd, List.nodup_singleton i, ?_⟩
    intro a ha hb
    rw [List.mem_singleton] at hb
    exact hd (hb ▸ ha)
  · exact (mchain_append need alloc done i w0).mpr ⟨hch, hr⟩
  · simp [hnum]
  · intro k hk j
    by_cases hki : k = i
    · simp [hki]
    · have hkd : k ∈ done := by
        rcases List.mem_append.mp hk with h | h
        · exact h
        · exact absurd (List.mem_singleton.mp h) hki
      simp [hki, hfin k hkd j]
  · intro k hk
    have hki : k ≠ i := fun h => hk (by simp [h])
    have hkd : k ∉ done := fun h => hk (by simp [h])
    funext j
    simp [hki, hrest k hkd]
  · intro j
    show wrapInt (t.temp_available j + t.temp_allocation i j) = _
    rw [freeAfter_append, hav j, hrow]

/-- Scanning a list of customers extends `done` by the customers marked during
the scan and counts them in `num_satisfied`; a scanned customer left unmarked
carries the sentinel in its allocation or was not ready on its turn. -/
theorem scan_list (w0 : Vec) (alloc need : Mat) (L : List (Fin NUMBER_OF_CUSTOMERS)) :
    ∀ (t : Locals) (done : List (Fin NUMBER_OF_CUSTOMERS)), SimInv w0 alloc need done t →
      ∃ ext, SimInv w0 alloc need (done ++ ext) (L.foldl scanCustomer t) ∧
        (L.foldl scanCustomer t).num_satisfied = t.num_satisfied + ext.length ∧
        ∀ x ∈ L, x ∈ done ++ ext ∨ alloc x ⟨0, by decide⟩ = -1 ∨
          ∃ e1, e1 <+: ext ∧ ¬ MReady w0 alloc need (done ++ e1) x := by
  induction L with
  | nil =>
    intro t done hinv
    exact ⟨[], by simpa using hinv, by simp, by simp⟩
  | cons i L ih =>
    intro t done hinv
    by_cases hfire : i ∉ done ∧ alloc i ⟨0, by decide⟩ ≠ -1 ∧ MReady w0 alloc need done i
    · obtain ⟨hd, h0, hr⟩ := hfire
      obtain ⟨hinv1, hsat1⟩ := scanCustomer_fire w0 alloc need done t i hinv hd h0 hr
      obtain ⟨ext, hinv2, hsat2, hmem⟩ := ih (scanCustomer t i) (done ++ [i]) hinv1
      refine ⟨i :: ext, ?_, ?_, ?_⟩
      · simpa [List.append_assoc] using hinv2
      · rw [List.foldl_cons, hsat2, hsat1, List.length_cons]
        ring
      · intro x hx
        rcases List.mem_cons.mp hx with hxi | hxL
        · left
          simp [hxi]
        · rcases hmem x hxL with h | h | ⟨e1, he1, hnr⟩
          · left
            simpa [List.append_assoc] using h
          · right; left; exact h
          · right; right
            refine ⟨i :: e1, ?_, ?_⟩
            · obtain ⟨r, hr2⟩ := he1
              exact ⟨r, by simp [← hr2]⟩
            · simpa [List.append_assoc] using hnr
    · have hskip : scanCustomer t i = t := by
        apply scanCustomer_skip w0 alloc need done t i hinv
        by_cases hd : i ∈ done
        · exact Or.inl hd
        · by_cases h0 : alloc i ⟨0, by decide⟩ = -1
          · exact Or.inr (Or.inl h0)
          · exact Or.inr (Or.inr (fun hr => hfire ⟨hd, h0, hr⟩))
      obtain ⟨ext, hinv2, hsat2, hmem⟩ := ih t done hinv
      refine ⟨ext, ?_, ?_, ?_⟩
      · rw [List.foldl_cons, hskip]; exact hinv2
      · rw [List.foldl_cons, hskip]; exact hsat2
      · intro x hx
        rcases List.mem_cons.mp hx with hxi | hxL
        · subst hxi
          by_cases hd : x ∈ done
          · left; exact List.mem_append_left _ hd
          · by_cases h0 : alloc x ⟨0, by decide⟩ = -1
            · right; left; exact h0
            · right; right
              refine ⟨[], List.nil_prefix, ?_⟩
              intro hr
              exact hfire ⟨hd, h0, by simpa using hr⟩
        · exact hmem x hxL

theorem nodup_length_le (l : List (Fin NUMBER_OF_CUSTOMERS)) (h : l.Nodup) :
    l.length ≤ NUMBER_OF_CUSTOMERS := by
  have := h.length_le_card
  simpa using this

theorem mem_of_full (l : List (Fin NUMBER_OF_CUSTOMERS)) (h : l.Nodup)
    (hlen : NUMBER_OF_CUSTOMERS ≤ l.length) (i : Fin NUMBER_OF_CUSTOMERS) : i ∈ l := by
  have hcard : l.toFinset.card = l.length := List.toFinset_card_of_nodup h
  have huniv : l.toFinset = Finset.univ := by
    apply Finset.eq_univ_of_card
    rw [hcard, Fintype.card_fin]
    exact le_antisymm (nodup_length_le l h) hlen
  have : i ∈ l.toFinset := by rw [huniv]; exact Finset.mem_univ i
  exact List.mem_toFinset.mp this

theorem exists_not_mem (l : List (Fin NUMBER_OF_CUSTOMERS))
    (hlen : l.length < NUMBER_OF_CUSTOMERS) : ∃ x, x ∉ l := by
  by_contra hall
  push_neg at hall
  have huniv : l.toFinset = Finset.univ := by
    ext x
    simp [hall x]
  have h1 : l.toFinset.card ≤ l.length := List.toFinset_card_le l
  rw [huniv, Finset.card_univ, Fintype.card_fin] at h1
  omega

theorem scanPass_spec (w0 : Vec) (alloc need : Mat) (t : Locals)
    (done : List (Fin NUMBER_OF_CUSTOMERS)) (hinv : SimInv w0 alloc need done t) :
    ∃ ext, SimInv w0 alloc need (done ++ ext) (scanPass t) ∧
      (scanPass t).num_satisfied = ext.length ∧
      ∀ x, x ∈ done ++ ext ∨ alloc x ⟨0, by decide⟩ = -1 ∨
        ∃ e1, e1 <+: ext ∧ ¬ MReady w0 alloc need (done ++ e1) x := by
  have hinv0 : SimInv w0 alloc need done { t with num_satisfied := 0 } := hinv
  obtain ⟨ext, h1, h2, h3⟩ :=
    scan_list w0 alloc need (List.finRange NUMBER_OF_CUSTOMERS) _ done hinv0
  refine ⟨ext, h1, ?_, fun x => h3 x (List.mem_finRange x)⟩
  simpa [scanPass] using h2

/-- The `while` loop returns within its budget, and when it returns 0 the
customers were marked finished along a chain that covers all of them. -/
theorem whileLoop_result (w0 : Vec) (alloc need : Mat) (fuel : Nat) :
    ∀ (t : Locals) (done : List (Fin NUMBER_OF_CUSTOMERS)), SimInv w0 alloc need done t →
      NUMBER_OF_CUSTOMERS + 1 ≤ fuel + done.length →
      whileLoop fuel t = some (-1) ∨
        (whileLoop fuel t = some 0 ∧
          ∃ l, l.Nodup ∧ NUMBER_OF_CUSTOMERS ≤ l.length ∧ MChain need alloc w0 l) := by
  induction fuel with
  | zero =>
    intro t done hinv hfuel
    have := nodup_length_le done hinv.1
    omega
  | succ fuel ih =>
    intro t done hinv hfuel
    unfold whileLoop
    by_cases hlt : t.num_finished < NUMBER_OF_CUSTOMERS
    · rw [if_pos hlt]
      obtain ⟨ext, hinv1, hsat, _⟩ := scanPass_spec w0 alloc need t done hinv
      by_cases hz : (scanPass t).num_satisfied = 0
      · left
        simp [hz]
      · simp only [hz, if_false]
        apply ih (scanPass t) (done ++ ext) hinv1
        rw [List.length_append]
        omega
    · rw [if_neg hlt]
      right
      refine ⟨rfl, done, hinv.1, ?_, hinv.2.1⟩
      have := hinv.2.2.1
      omega

/-- Along a chain that covers every customer, the first customer missing from
`done` is ready. -/
theorem exists_ready (w0 : Vec) (alloc need : Mat) (h0 : ∀ k j, 0 ≤ alloc k j)
    (done : List (Fin NUMBER_OF_CUSTOMERS)) (hdone : done.Nodup)
    (suf : List (Fin NUMBER_OF_CUSTOMERS)) :
    ∀ pre : List (Fin NUMBER_OF_CUSTOMERS), (pre ++ suf).Nodup → (∀ k ∈ pre, k ∈ done) →
      (∃ x ∈ suf, x ∉ done) → Chain need alloc (fun j => w0 j + heldBy alloc pre j) suf →
      ∃ x, x ∉ done ∧ Ready w0 alloc need done x := by
  induction suf with
  | nil =>
    intro pre _ _ hex _
    obtain ⟨x, hx, _⟩ := hex
    exact absurd hx (List.not_mem_nil x)
  | cons a suf ih =>
    intro pre hnd hpre hex hch
    obtain ⟨hneed, hrest⟩ := hch
    by_cases ha : a ∈ done
    · apply ih (pre ++ [a])
      · simpa [List.append_assoc] using hnd
      · intro k hk
        rcases List.mem_append.mp hk with h | h
        · exact hpre k h
        · rw [List.mem_singleton.mp h]; exact ha
      · obtain ⟨x, hx, hxd⟩ := hex
        rcases List.mem_cons.mp hx with h | h
        · exact absurd (h ▸ ha) hxd
        · exact ⟨x, h, hxd⟩
      · have hfun : (fun j => w0 j + heldBy alloc (pre ++ [a]) j) =
            (fun j => (fun j => w0 j + heldBy alloc pre j) j + alloc a j) := by
          funext j
          simp only [heldBy_append, heldBy_cons, heldBy_nil]
          ring
        rw [hfun]
        exact hrest
    · refine ⟨a, ha, ?_⟩
      intro j
      have hpn : pre.Nodup := (List.nodup_append.mp hnd).1
      have hle := heldBy_mono alloc j (fun k => h0 k j) pre done hpn hdone hpre
      have := hneed j
      simp only at this
      omega

/-- When the allocations are non-negative, nothing overflows and a chain covers
every customer, the `while` loop returns 0. -/
theorem whileLoop_complete (w0 : Vec) (alloc need : Mat) (h0 : ∀ k j, 0 ≤ alloc k j)
    (hlo : ∀ j, INT_MIN ≤ w0 j)
    (hhi : ∀ j, w0 j + Finset.univ.sum (fun i => alloc i j) ≤ INT_MAX)
    (l : List (Fin NUMBER_OF_CUSTOMERS)) (hl : l.Nodup) (hall : ∀ i, i ∈ l)
    (hch : Chain need alloc w0 l) (fuel : Nat) :
    ∀ (t : Locals) (done : List (Fin NUMBER_OF_CUSTOMERS)), SimInv w0 alloc need done t →
      NUMBER_OF_CUSTOMERS + 1 ≤ fuel + done.length → whileLoop fuel t = some 0 := by
  induction fuel with
  | zero =>
    intro t done hinv hfuel
    have := nodup_length_le done hinv.1
    omega
  | succ fuel ih =>
    intro t done hinv hfuel
    unfold whileLoop
    by_cases hlt : t.num_finished < NUMBER_OF_CUSTOMERS
    · rw [if_pos hlt]
      have hlen : done.length < NUMBER_OF_CUSTOMERS := by
        have := hinv.2.2.1
        omega
      obtain ⟨x0, hx0⟩ := exists_not_mem done hlen
      obtain ⟨x, hxd, hxr⟩ := exists_ready w0 alloc need h0 done hinv.1 l [] (by simpa using hl)
        (by simp) ⟨x0, hall x0, hx0⟩ (by simpa [heldBy_nil] using hch)
      obtain ⟨ext, hinv1, hsat, hmem⟩ := scanPass_spec w0 alloc need t done hinv
      have hxe : x ∈ ext := by
        rcases hmem x with h | h | ⟨e1, he1, hnr⟩
        · rcases List.mem_append.mp h with h | h
          · exact absurd h hxd
          · exact h
        · have := h0 x ⟨0, by decide⟩
          omega
        · exfalso
          apply hnr
          intro j
          have hnd : (done ++ e1).Nodup := by
            obtain ⟨r, hr⟩ := he1
            have hsub : (done ++ e1).Sublist (done ++ ext) := by
              rw [← hr, ← List.append_assoc]
              exact List.sublist_append_left _ _
            exact hinv1.1.sublist hsub
          rw [freeAfter_exact alloc h0 (done ++ e1) w0 hlo
            (fun k => by
              have h5 := heldBy_le_column alloc k (fun i => h0 i k) (done ++ e1) hnd
              have h6 := hhi k
              omega) j]
          have h1 := hxr j
          have h2 := heldBy_nonneg alloc j (fun k => h0 k j) e1
          rw [heldBy_append]
          omega
      have hpos : 0 < ext.length := List.length_pos_of_mem hxe
      have hz : (scanPass t).num_satisfied ≠ 0 := by omega
      simp only [hz, if_false]
      apply ih (scanPass t) (done ++ ext) hinv1
      rw [List.length_append]
      omega
    · rw [if_neg hlt]

/-! ## `safety_test` -/

theorem safety_test_inv (s : Ledger) (c : Fin NUMBER_OF_CUSTOMERS) (request : Vec) :
    SimInv (fun j => wrapInt (s.available j - request j)) s.allocation
      (fun i j => wrapInt (s.maximum i j - s.allocation i j)) []
      (initLocals blankLocals s c request) := by
  obtain ⟨h1, h2, h3, h4⟩ := initLocals_eq blankLocals s c request
  refine ⟨List.nodup_nil, trivial, by simpa using h4, ?_, ?_, ?_, h3⟩
  · intro i hi
    exact absurd hi (List.not_mem_nil i)
  · intro i _
    rw [h2]
  · intro j
    rw [h1]
    rfl

theorem completionOrdering_of_chain (s : Ledger) (request : Vec)
    (l : List (Fin NUMBER_OF_CUSTOMERS)) (hl : l.Nodup) (hall : ∀ i, i ∈ l)
    (hch : Chain (fun i j => s.maximum i j - s.allocation i j) s.allocation
      (fun j => s.available j - request j) l) : CompletionOrdering s request l :=
  ⟨hl, hall, (chain_iff_positions _ _ l _).mp hch⟩

/-- The two outcomes of `safety_test`: it returns -1, or it returns 0 and the
customers, in the order in which it marked them, each passed the test of line
293. -/
theorem safety_test_cases (s : Ledger) (c : Fin NUMBER_OF_CUSTOMERS) (request : Vec) :
    safety_test s c request = some (-1) ∨
      (safety_test s c request = some 0 ∧
        ∃ l : List (Fin NUMBER_OF_CUSTOMERS), l.Nodup ∧ (∀ i, i ∈ l) ∧
          MChain (fun i j => wrapInt (s.maximum i j - s.allocation i j)) s.allocation
            (fun j => wrapInt (s.available j - request j)) l) := by
  have h := whileLoop_result _ _ _ (NUMBER_OF_CUSTOMERS + 1) _ [] (safety_test_inv s c request)
    (by simp)
  rcases h with h | ⟨h, l, hl, hlen, hch⟩
  · exact Or.inl h
  · exact Or.inr ⟨h, l, hl, mem_of_full l hl hlen, hch⟩

/-- Without overflow the initialisation loops store the exact differences. -/
theorem init_exact (s : Ledger) (request : Vec) (hinit : InitInRange s request) :
    (fun j => wrapInt (s.available j - request j)) = (fun j => s.available j - request j) ∧
      (fun i j => wrapInt (s.maximum i j - s.allocation i j)) =
        (fun i j => s.maximum i j - s.allocation i j) := by
  constructor
  · funext j
    exact wrapInt_of_inRange _ (hinit.1 j)
  · funext i j
    exact wrapInt_of_inRange _ (hinit.2 i j)

/-- Without overflow, a list without repetition is a chain for the code exactly
when it is a chain over the exact sums. -/
theorem mchain_iff_chain_ledger (s : Ledger) (request : Vec) (h0 : ∀ i j, 0 ≤ s.allocation i j)
    (hinit : InitInRange s request) (hsum : SumsInRange s request)
    (l : List (Fin NUMBER_OF_CUSTOMERS)) (hl : l.Nodup) :
    MChain (fun i j => wrapInt (s.maximum i j - s.allocation i j)) s.allocation
        (fun j => wrapInt (s.available j - request j)) l ↔
      Chain (fun i j => s.maximum i j - s.allocation i j) s.allocation
        (fun j => s.available j - request j) l := by
  obtain ⟨e1, e2⟩ := init_exact s request hinit
  rw [e1, e2]
  apply mchain_iff_chain _ _ h0 l
  · intro j
    exact (hinit.1 j).1
  · intro j
    have h1 := heldBy_le_column s.allocation j (fun i => h0 i j) l hl
    have h2 := hsum j
    show s.available j - request j + heldBy s.allocation l j ≤ INT_MAX
    omega

/-- Without overflow and with non-negative allocations: `safety_test` returns
-1, or it returns 0 and the order in which it marked the customers is a
completion ordering. -/
theorem safety_test_cases_exact (s : Ledger) (c : Fin NUMBER_OF_CUSTOMERS) (request : Vec)
    (h0 : ∀ i j, 0 ≤ s.allocation i j) (hinit : InitInRange s request)
    (hsum : SumsInRange s request) :
    safety_test s c request = some (-1) ∨
      (safety_test s c request = some 0 ∧ ∃ l, CompletionOrdering s request l) := by
  rcases safety_test_cases s c request with h | ⟨h, l, hl, hall, hch⟩
  · exact Or.inl h
  · refine Or.inr ⟨h, l, completionOrdering_of_chain s request l hl hall ?_⟩
    exact (mchain_iff_chain_ledger s request h0 hinit hsum l hl).mp hch

theorem safety_test_complete (s : Ledger) (c : Fin NUMBER_OF_CUSTOMERS) (request : Vec)
    (h0 : ∀ i j, 0 ≤ s.allocation i j) (hinit : InitInRange s request)
    (hsum : SumsInRange s request) (l : List (Fin NUMBER_OF_CUSTOMERS))
    (hl : CompletionOrdering s request l) : safety_test s c request = some 0 := by
  obtain ⟨e1, e2⟩ := init_exact s request hinit
  have hch : Chain (fun i j => wrapInt (s.maximum i j - s.allocation i j)) s.allocation
      (fun j => wrapInt (s.available j - request j)) l := by
    rw [e1, e2]
    exact (chain_iff_positions _ _ l _).mpr hl.2.2
  apply whileLoop_complete _ _ _ h0 _ _ l hl.1 hl.2.1 hch (NUMBER_OF_CUSTOMERS + 1) _ []
    (safety_test_inv s c request) (by simp)
  · intro j
    rw [wrapInt_of_inRange _ (hinit.1 j)]
    exact (hinit.1 j).1
  · intro j
    rw [wrapInt_of_inRange _ (hinit.1 j)]
    exact hsum j

/-- C1 (counterexample): in the ledger `twoLargeHolders` every allocation is
non-negative and 0, 1, 2, 3, 4 is a completion ordering, yet `safety_test`
returns -1: handing back the second `2^30` overflows `temp_available`. -/
theorem safety_test_misses_ordering_on_overflow :
    (∀ i j, 0 ≤ twoLargeHolders.allocation i j) ∧
      CompletionOrdering twoLargeHolders zeroVec [0, 1, 2, 3, 4] ∧
      safety_test twoLargeHolders 0 zeroVec = some (-1) :=
  ⟨by decide, by decide, by decide⟩

/-- C1 (amended): on a ledger whose allocation entries are all non-negative and
on which the simulation does not overflow, `safety_test` returns 0 exactly when
the state it simulates has a completion ordering of all customers, and returns
-1 otherwise. -/
theorem safety_test_iff_completion_ordering (s : Ledger) (customer_num : Fin NUMBER_OF_CUSTOMERS)
    (request : Vec) (halloc : ∀ i j, 0 ≤ s.allocation i j) (hinit : InitInRange s request)
    (hsum : SumsInRange s request) :
    (safety_test s customer_num request = some 0 ↔ ∃ l, CompletionOrdering s request l) ∧
      ((¬ ∃ l, CompletionOrdering s request l) → safety_test s customer_num request = some (-1)) := by
  refine ⟨⟨?_, ?_⟩, ?_⟩
  · intro h
    rcases safety_test_cases_exact s customer_num request halloc hinit hsum with h1 | ⟨_, hl⟩
    · rw [h1] at h
      exact absurd h (by decide)
    · exact hl
  · rintro ⟨l, hl⟩
    exact safety_test_complete s customer_num request halloc hinit hsum l hl
  · intro hno
    rcases safety_test_cases_exact s customer_num request halloc hinit hsum with h1 | ⟨_, hl⟩
    · exact h1
    · exact absurd hl hno

theorem safety_test_iff_completion_ordering_witness :
    (∀ i j, 0 ≤ scenario.allocation i j) ∧ InitInRange scenario (vec3 1 2 0) ∧
      SumsInRange scenario (vec3 1 2 0) ∧
      ((safety_test scenario 0 (vec3 1 2 0) = some 0 ↔
          ∃ l, CompletionOrdering scenario (vec3 1 2 0) l) ∧
        ((¬ ∃ l, CompletionOrdering scenario (vec3 1 2 0) l) →
          safety_test scenario 0 (vec3 1 2 0) = some (-1))) :=
  ⟨by decide, by decide, by decide,
    safety_test_iff_completion_ordering scenario 0 (vec3 1 2 0) (by decide) (by decide)
      (by decide)⟩

/-! ## `request_resources` and `release_resources` -/

theorem grant_fold (c : Fin NUMBER_OF_CUSTOMERS) (request : Vec)
    (L : List (Fin NUMBER_OF_RESOURCES)) (hL : L.Nodup) (s : Ledger) :
    L.foldl (grantStep c request) s =
      { available := fun j =>
          if j ∈ L then wrapInt (s.available j - request j) else s.available j
        maximum := s.maximum
        allocation := fun k j =>
          if k = c ∧ j ∈ L then wrapInt (s.allocation k j + request j) else s.allocation k j
        need := fun k j =>
          if k = c ∧ j ∈ L then wrapInt (s.need k j - request j) else s.need k j } := by
  induction L generalizing s with
  | nil => simp
  | cons a L ih =>
    have ha : a ∉ L := (List.nodup_cons.mp hL).1
    rw [List.foldl_cons, ih (List.nodup_cons.mp hL).2]
    simp only [grantStep, Ledger.mk.injEq, and_true, true_and]
    refine ⟨?_, ?_, ?_⟩
    · funext j
      by_cases hj : j ∈ L
      · have hja : j ≠ a := fun h => ha (h ▸ hj)
        simp [hj, hja]
      · by_cases hja : j = a
        · subst hja; simp [hj]
        · simp [hj, hja]
    · funext k j
      by_cases hk : k = c
      · by_cases hj : j ∈ L
        · have hja : j ≠ a := fun h => ha (h ▸ hj)
          simp [hk, hj, hja, setCell_apply]
        · by_cases hja : j = a
          · simp [hk, hja, ha, setCell_apply]
          · simp [hk, hj, hja, setCell_apply]
      · simp [hk, setCell_apply]
    · funext k j
      by_cases hk : k = c
      · by_cases hj : j ∈ L
        · have hja : j ≠ a := fun h => ha (h ▸ hj)
          simp [hk, hj, hja, setCell_apply]
        · by_cases hja : j = a
          · simp [hk, hja, ha, setCell_apply]
          · simp [hk, hj, hja, setCell_apply]
      · simp [hk, setCell_apply]

/-- The ledger after the grant loop of `request_resources`. -/
theorem grant_all (c : Fin NUMBER_OF_CUSTOMERS) (request : Vec) (s : Ledger) :
    (List.finRange NUMBER_OF_RESOURCES).foldl (grantStep c request) s =
      { available := fun j => wrapInt (s.available j - request j)
        maximum := s.maximum
        allocation := fun k j =>
          if k = c then wrapInt (s.allocation k j + request j) else s.allocation k j
        need := fun k j => if k = c then wrapInt (s.need k j - request j) else s.need k j } := by
  rw [grant_fold c request _ (List.nodup_finRange _) s]
  simp [List.mem_finRange]

theorem releaseStep_eq_grantStep (c : Fin NUMBER_OF_CUSTOMERS) (release : Vec) :
    releaseStep c release = grantStep c (fun j => - release j) := by
  funext s i
  simp [releaseStep, grantStep, sub_eq_add_neg]

/-- The ledger after the loop of `release_resources`. -/
theorem release_all (c : Fin NUMBER_OF_CUSTOMERS) (release : Vec) (s : Ledger) :
    (List.finRange NUMBER_OF_RESOURCES).foldl (releaseStep c release) s =
      { available := fun j => wrapInt (s.available j + release j)
        maximum := s.maximum
        allocation := fun k j =>
          if k = c then wrapInt (s.allocation k j - release j) else s.allocation k j
        need := fun k j => if k = c then wrapInt (s.need k j + release j) else s.need k j } := by
  rw [releaseStep_eq_grantStep, grant_all]
  simp [sub_eq_add_neg]

/-- The two outcomes of `request_resources`: denied with the ledger untouched,
or granted after the address comparison passed and `safety_test` returned 0. -/
theorem request_resources_cases (exceeds : Int → Bool) (s : Ledger)
    (c : Fin NUMBER_OF_CUSTOMERS) (request : Vec) :
    (request_resources exceeds s c request = some (-1, s) ∧
        (availabilityScan exceeds request (List.finRange NUMBER_OF_RESOURCES) = true ∨
          safety_test s c request = some (-1))) ∨
      (request_resources exceeds s c request =
          some (0, (List.finRange NUMBER_OF_RESOURCES).foldl (grantStep c request) s) ∧
        availabilityScan exceeds request (List.finRange NUMBER_OF_RESOURCES) = false ∧
        safety_test s c request = some 0) := by
  unfold request_resources
  by_cases hscan : availabilityScan exceeds request (List.finRange NUMBER_OF_RESOURCES) = true
  · left
    simp [hscan]
  · rcases safety_test_cases s c request with h | ⟨h, _⟩
    · left
      simp [hscan, h]
    · right
      simp [hscan, h]

theorem availabilityScan_iff (exceeds : Int → Bool) (request : Vec)
    (L : List (Fin NUMBER_OF_RESOURCES)) :
    availabilityScan exceeds request L = true ↔ ∃ i ∈ L, exceeds (request i) = true := by
  induction L with
  | nil => simp [availabilityScan]
  | cons a L ih =>
    simp only [availabilityScan, List.mem_cons, exists_eq_or_imp]
    by_cases h : exceeds (request a) = true
    · simp [h]
    · simp [h, ih]

theorem heldBy_le (a b : Mat) (j : Fin NUMBER_OF_RESOURCES) (h : ∀ k, a k j ≤ b k j)
    (l : List (Fin NUMBER_OF_CUSTOMERS)) : heldBy a l j ≤ heldBy b l j := by
  induction l with
  | nil => simp [heldBy_nil]
  | cons x l ih =>
    rw [heldBy_cons, heldBy_cons]
    exact add_le_add (h x) ih

/-- A completion ordering stays one when every customer needs no more, holds no
less, and no less is free. -/
theorem completionOrdering_mono (s s1 : Ledger) (r r1 : Vec) (l : List (Fin NUMBER_OF_CUSTOMERS))
    (hneed : ∀ i j, s1.maximum i j - s1.allocation i j ≤ s.maximum i j - s.allocation i j)
    (hav : ∀ j, s.available j - r j ≤ s1.available j - r1 j)
    (halloc : ∀ i j, s.allocation i j ≤ s1.allocation i j)
    (h : CompletionOrdering s r l) : CompletionOrdering s1 r1 l := by
  obtain ⟨hnd, hall, hpos⟩ := h
  refine ⟨hnd, hall, ?_⟩
  intro p j
  have h1 := hpos p j
  have h2 := hneed (l.get p) j
  have h3 := hav j
  have h4 := heldBy_le s.allocation s1.allocation j (fun k => halloc k j) (l.take p)
  omega

theorem sum_bump (a : Fin NUMBER_OF_CUSTOMERS → Int) (c : Fin NUMBER_OF_CUSTOMERS) (q : Int) :
    Finset.univ.sum (fun i => if i = c then a i + q else a i) = Finset.univ.sum a + q := by
  have h : (fun i => if i = c then a i + q else a i) = fun i => a i + (if i = c then q else 0) := by
    funext i
    by_cases hi : i = c
    · simp [hi]
    · simp [hi]
  rw [h, Finset.sum_add_distrib, Finset.sum_ite_eq']
  simp

theorem safety_test_zero_free (s : Ledger) (c : Fin NUMBER_OF_CUSTOMERS) (request : Vec)
    (hmax : ∀ i r, s.allocation i r ≤ s.maximum i r) (hinit : InitInRange s request)
    (h : safety_test s c request = some 0) : ∀ r, request r ≤ s.available r := by
  rcases safety_test_cases s c request with h1 | ⟨_, l, _, hall, hch⟩
  · rw [h1] at h
    exact absurd h (by decide)
  · intro r
    cases l with
    | nil => exact absurd (hall c) (List.not_mem_nil c)
    | cons y rest =>
      have h2 := hch.1 r
      simp only at h2
      rw [wrapInt_of_inRange _ (hinit.1 r), wrapInt_of_inRange _ (hinit.2 y r)] at h2
      have h3 := hmax y r
      omega

/-! ## Ledgers that fit the `int` type -/

theorem sum_replace (a : Fin NUMBER_OF_CUSTOMERS → Int) (c : Fin NUMBER_OF_CUSTOMERS) (x : Int) :
    Finset.univ.sum (fun i => if i = c then x else a i) = Finset.univ.sum a + (x - a c) := by
  have h : (fun i => if i = c then x else a i) =
      fun i => if i = c then a i + (x - a c) else a i := by
    funext i
    by_cases hi : i = c
    · simp [hi]
    · simp [hi]
  rw [h, sum_bump]

theorem sum_replace_fn (a f : Fin NUMBER_OF_CUSTOMERS → Int) (c : Fin NUMBER_OF_CUSTOMERS) :
    Finset.univ.sum (fun i => if i = c then f i else a i) = Finset.univ.sum a + (f c - a c) := by
  have h : (fun i => if i = c then f i else a i) = fun i => if i = c then f c else a i := by
    funext i
    by_cases hi : i = c
    · simp [hi]
    · simp [hi]
  rw [h, sum_replace]

theorem ledger_column_bound (s : Ledger) (h0 : ∀ i j, 0 ≤ s.allocation i j)
    (hfit : ∀ j, totalUnits s j ≤ INT_MAX) (i : Fin NUMBER_OF_CUSTOMERS)
    (j : Fin NUMBER_OF_RESOURCES) : s.allocation i j + s.available j ≤ INT_MAX := by
  have h1 : s.allocation i j ≤ Finset.univ.sum (fun k => s.allocation k j) :=
    Finset.single_le_sum (f := fun k => s.allocation k j) (fun k _ => h0 k j) (Finset.mem_univ i)
  have h2 := hfit j
  unfold totalUnits at h2
  omega

theorem data_invariants_customer (s : Ledger) (hinv : DataInvariants s) :
    CustomerInvariants s := by
  obtain ⟨hav, _, halloc, hneed0, hneed⟩ := hinv
  refine ⟨?_, hneed, hav⟩
  intro i r
  have h1 := halloc i r
  have h2 := hneed0 i r
  have h3 := hneed i r
  omega

/-- On a fitting ledger the simulation of a request between 0 and `INT_MAX`
does not overflow. -/
theorem fitting_request (s : Ledger) (request : Vec) (hfi : FittingInvariants s)
    (hreq : ∀ r, 0 ≤ request r ∧ request r ≤ INT_MAX) :
    InitInRange s request ∧ SumsInRange s request := by
  obtain ⟨⟨halloc, hneed, hav⟩, hmax, htot⟩ := hfi
  have hcol := ledger_column_bound s (fun i j => (halloc i j).1) htot
  refine ⟨⟨?_, ?_⟩, ?_⟩
  · intro j
    have h1 := hav j
    have h2 := hreq j
    have h3 := hcol ⟨0, by decide⟩ j
    have h4 := (halloc ⟨0, by decide⟩ j).1
    simp only [InIntRange, INT_MIN, INT_MAX] at *
    constructor <;> omega
  · intro i j
    have h1 := halloc i j
    have h2 := hmax i j
    simp only [InIntRange, INT_MIN, INT_MAX] at *
    constructor <;> omega
  · intro j
    have h1 := htot j
    have h2 := hreq j
    unfold totalUnits at h1
    omega

/-- On a fitting ledger a request between 0 and both `need[c]` and `available`
is applied without overflow. -/
theorem fitting_grant (s : Ledger) (c : Fin NUMBER_OF_CUSTOMERS) (request : Vec)
    (hfi : FittingInvariants s) (hreq : ∀ r, 0 ≤ request r ∧ request r ≤ INT_MAX)
    (hle : ∀ r, request r ≤ s.available r) :
    (List.finRange NUMBER_OF_RESOURCES).foldl (grantStep c request) s =
      { available := fun j => s.available j - request j
        maximum := s.maximum
        allocation := fun k j => if k = c then s.allocation k j + request j else s.allocation k j
        need := fun k j => if k = c then s.need k j - request j else s.need k j } := by
  obtain ⟨⟨halloc, hneed, hav⟩, hmax, htot⟩ := hfi
  have hcol := ledger_column_bound s (fun i j => (halloc i j).1) htot
  rw [grant_all]
  simp only [Ledger.mk.injEq, true_and]
  refine ⟨?_, ?_, ?_⟩
  · funext j
    apply wrapInt_of_inRange
    have h1 := hav j
    have h2 := hreq j
    have h3 := hle j
    have h4 := hcol c j
    have h5 := (halloc c j).1
    simp only [InIntRange, INT_MIN, INT_MAX] at *
    constructor <;> omega
  · funext k j
    by_cases hk : k = c
    · simp only [hk, if_true]
      apply wrapInt_of_inRange
      have h2 := hreq j
      have h3 := hle j
      have h4 := hcol c j
      have h5 := (halloc c j).1
      simp only [InIntRange, INT_MIN, INT_MAX] at *
      constructor <;> omega
    · simp only [hk, if_false]
  · funext k j
    by_cases hk : k = c
    · simp only [hk, if_true]
      apply wrapInt_of_inRange
      have h2 := hreq j
      have h4 := hneed c j
      have h5 := halloc c j
      have h6 := hmax c j
      simp only [InIntRange, INT_MIN, INT_MAX] at *
      constructor <;> omega
    · simp only [hk, if_false]

/-- On a fitting ledger a release between 0 and `allocation[c]` is applied
without overflow. -/
theorem fitting_release (s : Ledger) (c : Fin NUMBER_OF_CUSTOMERS) (release : Vec)
    (hfi : FittingInvariants s) (hrel : ∀ r, 0 ≤ release r ∧ release r ≤ s.allocation c r) :
    (List.finRange NUMBER_OF_RESOURCES).foldl (releaseStep c release) s =
      { available := fun j => s.available j + release j
        maximum := s.maximum
        allocation := fun k j => if k = c then s.allocation k j - release j else s.allocation k j
        need := fun k j => if k = c then s.need k j + release j else s.need k j } := by
  obtain ⟨⟨halloc, hneed, hav⟩, hmax, htot⟩ := hfi
  have hcol := ledger_column_bound s (fun i j => (halloc i j).1) htot
  rw [release_all]
  simp only [Ledger.mk.injEq, true_and]
  refine ⟨?_, ?_, ?_⟩
  · funext j
    apply wrapInt_of_inRange
    have h1 := hav j
    have h2 := hrel j
    have h4 := hcol c j
    simp only [InIntRange, INT_MIN, INT_MAX] at *
    constructor <;> omega
  · funext k j
    by_cases hk : k = c
    · simp only [hk, if_true]
      apply wrapInt_of_inRange
      have h2 := hrel j
      have h5 := halloc c j
      have h6 := hmax c j
      simp only [InIntRange, INT_MIN, INT_MAX] at *
      constructor <;> omega
    · simp only [hk, if_false]
  · funext k j
    by_cases hk : k = c
    · simp only [hk, if_true]
      apply wrapInt_of_inRange
      have h2 := hrel j
      have h4 := hneed c j
      have h5 := halloc c j
      have h6 := hmax c j
      simp only [InIntRange, INT_MIN, INT_MAX] at *
      constructor <;> omega
    · simp only [hk, if_false]

/-! ## The claims -/

/-- C2 (counterexample): the ledger `fullClient` satisfies the data-model
invariants, client 0 asks for `[1,0,0]`, the request is granted, and
`safety_test` with the all-zero request returns -1 on the committed ledger:
`allocation[0][0]` overflows from `INT_MAX` to `INT_MIN`. -/
theorem request_granted_unsafe_on_overflow :
    DataInvariants fullClient ∧ (∀ r, 0 ≤ vec3 1 0 0 r) ∧
      request_resources (exceedsAddress sampleAddress) fullClient 0 (vec3 1 0 0) =
        some (0, (List.finRange NUMBER_OF_RESOURCES).foldl (grantStep 0 (vec3 1 0 0)) fullClient) ∧
      ((List.finRange NUMBER_OF_RESOURCES).foldl
        (grantStep 0 (vec3 1 0 0)) fullClient).allocation 0 0 = INT_MIN ∧
      safety_test ((List.finRange NUMBER_OF_RESOURCES).foldl (grantStep 0 (vec3 1 0 0)) fullClient)
        0 zeroVec = some (-1) :=
  ⟨by decide, by decide, rfl, by decide, by decide⟩

/-- C2 (amended): on a ledger that satisfies the data-model invariants and fits
the `int` type, a granted request with entries between 0 and `INT_MAX` commits
a safe state: `safety_test` with the all-zero request returns 0 on the ledger
left by `request_resources`. -/
theorem request_granted_state_safe (exceeds : Int → Bool) (s : Ledger)
    (c : Fin NUMBER_OF_CUSTOMERS) (request : Vec) (hinv : DataInvariants s)
    (hfit : LedgerFits s) (hreq : ∀ r, 0 ≤ request r ∧ request r ≤ INT_MAX) (s1 : Ledger)
    (hgrant : request_resources exceeds s c request = some (0, s1))
    (c1 : Fin NUMBER_OF_CUSTOMERS) : safety_test s1 c1 zeroVec = some 0 := by
  have hfi : FittingInvariants s := ⟨data_invariants_customer s hinv, hfit⟩
  obtain ⟨hinit, hsum⟩ := fitting_request s request hfi hreq
  obtain ⟨⟨halloc, hneed, hav⟩, hmax, htot⟩ := hfi
  rcases request_resources_cases exceeds s c request with ⟨h, _⟩ | ⟨h, _, hsafe⟩
  · rw [h] at hgrant
    simp at hgrant
  · rw [h] at hgrant
    have hle := safety_test_zero_free s c request (fun i r => (halloc i r).2) hinit hsafe
    have hs1 : s1 = (List.finRange NUMBER_OF_RESOURCES).foldl (grantStep c request) s := by
      simpa using hgrant.symm
    rw [fitting_grant s c request ⟨⟨halloc, hneed, hav⟩, hmax, htot⟩ hreq hle] at hs1
    rcases safety_test_cases_exact s c request (fun i j => (halloc i j).1) hinit hsum with
      h1 | ⟨_, l, hl⟩
    · rw [h1] at hsafe
      exact absurd hsafe (by decide)
    · have hcol := ledger_column_bound s (fun i j => (halloc i j).1) htot
      apply safety_test_complete s1 c1 zeroVec _ _ _ l
      · apply completionOrdering_mono s s1 request zeroVec l _ _ _ hl
        · intro i j
          have := (hreq j).1
          by_cases hi : i = c
          · simp only [hs1, hi, if_true]; omega
          · simp only [hs1, hi, if_false]; omega
        · intro j
          simp only [hs1, zeroVec]; omega
        · intro i j
          have := (hreq j).1
          by_cases hi : i = c
          · simp only [hs1, hi, if_true]; omega
          · simp only [hs1, hi, if_false]; omega
      · intro i j
        have h1 := (halloc i j).1
        have h2 := (hreq j).1
        by_cases hi : i = c
        · simp only [hs1, hi, if_true]
          rw [hi] at h1
          omega
        · simp only [hs1, hi, if_false]
          exact h1
      · constructor
        · intro j
          have h1 := hav j
          have h2 := hreq j
          have h3 := hle j
          have h4 := hcol c j
          have h5 := (halloc c j).1
          simp only [hs1, zeroVec, InIntRange, INT_MIN, INT_MAX] at *
          constructor <;> omega
        · intro i j
          have h1 := halloc i j
          have h2 := hmax i j
          have h3 := hreq j
          by_cases hi : i = c
          · simp only [hs1, hi, if_true, InIntRange, INT_MIN, INT_MAX] at *
            constructor <;> omega
          · simp only [hs1, hi, if_false, InIntRange, INT_MIN, INT_MAX] at *
            constructor <;> omega
      · intro j
        have h1 := htot j
        unfold totalUnits at h1
        simp only [hs1, zeroVec]
        rw [sum_bump (fun i => s.allocation i j) c (request j)]
        omega

theorem request_granted_state_safe_witness :
    DataInvariants scenario ∧ LedgerFits scenario ∧
      (∀ r, 0 ≤ vec3 1 0 0 r ∧ vec3 1 0 0 r ≤ INT_MAX) ∧
      request_resources (exceedsAddress sampleAddress) scenario 1 (vec3 1 0 0) =
        some (0, (List.finRange NUMBER_OF_RESOURCES).foldl (grantStep 1 (vec3 1 0 0)) scenario) ∧
      safety_test ((List.finRange NUMBER_OF_RESOURCES).foldl (grantStep 1 (vec3 1 0 0)) scenario)
        0 zeroVec = some 0 :=
  ⟨by decide, by decide, by decide, rfl,
    request_granted_state_safe (exceedsAddress sampleAddress) scenario 1 (vec3 1 0 0) (by decide)
      (by decide) (by decide) _ rfl 0⟩

/-- C3 (the code at the scenario of the specification): the ledger satisfies the
data-model invariants, the request [1,2] of client 0 is within its need and
within `available`, the state obtained by tentatively applying the request has
the completion ordering 0, 1, 2, 3, 4, and `request_resources` returns -1. -/
theorem scenario_request_denied :
    DataInvariants scenario ∧
      (∀ r, 0 ≤ vec3 1 2 0 r ∧ vec3 1 2 0 r ≤ scenario.need 0 r ∧
        vec3 1 2 0 r ≤ scenario.available r) ∧
      CompletionOrdering
        ((List.finRange NUMBER_OF_RESOURCES).foldl (grantStep 0 (vec3 1 2 0)) scenario)
        zeroVec [0, 1, 2, 3, 4] ∧
      safety_test scenario 0 (vec3 1 2 0) = some (-1) ∧
      request_resources (exceedsAddress sampleAddress) scenario 0 (vec3 1 2 0) =
        some (-1, scenario) :=
  ⟨by decide, by decide, by decide, by decide, rfl⟩

/-- C4: when `request_resources` returns -1, `available`, `allocation`, `need`
and `maximum` after the call are what they were before it. -/
theorem request_denied_ledger_unchanged (exceeds : Int → Bool) (s : Ledger)
    (c : Fin NUMBER_OF_CUSTOMERS) (request : Vec) (s1 : Ledger)
    (hdeny : request_resources exceeds s c request = some (-1, s1)) :
    s1.available = s.available ∧ s1.allocation = s.allocation ∧ s1.need = s.need ∧
      s1.maximum = s.maximum := by
  rcases request_resources_cases exceeds s c request with ⟨h, _⟩ | ⟨h, _, _⟩
  · rw [h] at hdeny
    have hs : s = s1 := by simpa using hdeny
    subst hs
    exact ⟨rfl, rfl, rfl, rfl⟩
  · rw [h] at hdeny
    simp at hdeny

theorem request_denied_ledger_unchanged_witness :
    request_resources (exceedsAddress sampleAddress) scenario 0 (vec3 1 2 0) =
        some (-1, scenario) ∧
      (scenario.available = scenario.available ∧ scenario.allocation = scenario.allocation ∧
        scenario.need = scenario.need ∧ scenario.maximum = scenario.maximum) :=
  ⟨rfl, request_denied_ledger_unchanged (exceedsAddress sampleAddress) scenario 0 (vec3 1 2 0)
    scenario rfl⟩

/-- C5 (counterexample): in the ledger `fullClient` the request `[1,0,0]` of
client 0 is granted and the new `allocation[0][0]` is `INT_MIN`, not the old
value `INT_MAX` plus the request. -/
theorem request_granted_effect_wraps :
    request_resources (exceedsAddress sampleAddress) fullClient 0 (vec3 1 0 0) =
        some (0, (List.finRange NUMBER_OF_RESOURCES).foldl (grantStep 0 (vec3 1 0 0)) fullClient) ∧
      ((List.finRange NUMBER_OF_RESOURCES).foldl
        (grantStep 0 (vec3 1 0 0)) fullClient).allocation 0 0 = -2147483648 ∧
      fullClient.allocation 0 0 + vec3 1 0 0 0 = 2147483648 :=
  ⟨rfl, by decide, by decide⟩

/-- C5 (amended): when `request_resources` returns 0, row `c` of `allocation`
grew by the request and row `c` of `need` and `available` shrank by it, each
computed in `int` arithmetic and therefore exact whenever the exact value is
representable; the other rows of `allocation` and `need` and all of `maximum`
are unchanged. -/
theorem request_granted_effect (exceeds : Int → Bool) (s : Ledger)
    (c : Fin NUMBER_OF_CUSTOMERS) (request : Vec) (s1 : Ledger)
    (hgrant : request_resources exceeds s c request = some (0, s1)) :
    (∀ r, s1.allocation c r = wrapInt (s.allocation c r + request r) ∧
        s1.need c r = wrapInt (s.need c r - request r) ∧
        s1.available r = wrapInt (s.available r - request r)) ∧
      (∀ r, (InIntRange (s.allocation c r + request r) →
          s1.allocation c r = s.allocation c r + request r) ∧
        (InIntRange (s.need c r - request r) → s1.need c r = s.need c r - request r) ∧
        (InIntRange (s.available r - request r) →
          s1.available r = s.available r - request r)) ∧
      (∀ i, i ≠ c → s1.allocation i = s.allocation i ∧ s1.need i = s.need i) ∧
      s1.maximum = s.maximum := by
  rcases request_resources_cases exceeds s c request with ⟨h, _⟩ | ⟨h, _, _⟩
  · rw [h] at hgrant
    simp at hgrant
  · rw [h] at hgrant
    have hs1 : s1 = (List.finRange NUMBER_OF_RESOURCES).foldl (grantStep c request) s := by
      simpa using hgrant.symm
    rw [grant_all] at hs1
    subst hs1
    refine ⟨fun r => by simp, ?_, ?_, rfl⟩
    · intro r
      refine ⟨?_, ?_, ?_⟩
      · intro hr
        simp [wrapInt_of_inRange _ hr]
      · intro hr
        simp [wrapInt_of_inRange _ hr]
      · intro hr
        simp [wrapInt_of_inRange _ hr]
    · intro i hi
      constructor
      · funext j; simp [hi]
      · funext j; simp [hi]

theorem request_granted_effect_witness :
    request_resources (exceedsAddress sampleAddress) scenario 1 (vec3 1 0 0) =
        some (0, (List.finRange NUMBER_OF_RESOURCES).foldl (grantStep 1 (vec3 1 0 0)) scenario) ∧
      ((List.finRange NUMBER_OF_RESOURCES).foldl
          (grantStep 1 (vec3 1 0 0)) scenario).allocation 1 0 = 1 ∧
      ((List.finRange NUMBER_OF_RESOURCES).foldl
          (grantStep 1 (vec3 1 0 0)) scenario).maximum = scenario.maximum :=
  ⟨rfl, by decide,
    (request_granted_effect (exceedsAddress sampleAddress) scenario 1 (vec3 1 0 0) _ rfl).2.2.2⟩

/-- C6 (counterexample): in the scenario ledger client 2 needs nothing, asks for
one unit of resource 0, and `request_resources` returns 0. -/
theorem request_beyond_need_granted :
    (∃ r, vec3 1 0 0 r > scenario.need 2 r) ∧
      request_resources (exceedsAddress sampleAddress) scenario 2 (vec3 1 0 0) =
        some (0, (List.finRange NUMBER_OF_RESOURCES).foldl (grantStep 2 (vec3 1 0 0)) scenario) :=
  ⟨by decide, rfl⟩

/-- C6 (amended): `request_resources` does not compare the request with `need`.
A request with `request[r] > need[c][r]` for some `r` is denied exactly when one
of its entries compares greater than `available` at line 181 or `safety_test`
returns -1, and is granted exactly when neither happens. -/
theorem request_beyond_need_outcome (exceeds : Int → Bool) (s : Ledger)
    (c : Fin NUMBER_OF_CUSTOMERS) (request : Vec) (_hneed : ∃ r, request r > s.need c r) :
    (request_resources exceeds s c request = some (-1, s) ↔
        ((∃ i, exceeds (request i) = true) ∨ safety_test s c request = some (-1))) ∧
      ((∃ s1, request_resources exceeds s c request = some (0, s1)) ↔
        ((∀ i, exceeds (request i) = false) ∧ safety_test s c request = some 0)) := by
  have hscan : availabilityScan exceeds request (List.finRange NUMBER_OF_RESOURCES) = true ↔
      ∃ i, exceeds (request i) = true := by
    rw [availabilityScan_iff]
    simp [List.mem_finRange]
  rcases request_resources_cases exceeds s c request with ⟨h, hwhy⟩ | ⟨h, hno, hsafe⟩
  · have hor : (∃ i, exceeds (request i) = true) ∨ safety_test s c request = some (-1) := by
      rcases hwhy with h1 | h1
      · exact Or.inl (hscan.mp h1)
      · exact Or.inr h1
    refine ⟨⟨fun _ => hor, fun _ => h⟩, ⟨?_, ?_⟩⟩
    · rintro ⟨s1, hs1⟩
      rw [h] at hs1
      simp at hs1
    · rintro ⟨hall, h0⟩
      rcases hor with ⟨i, hi⟩ | h1
      · rw [hall i] at hi
        exact absurd hi (by decide)
      · rw [h1] at h0
        exact absurd h0 (by decide)
  · have hall : ∀ i, exceeds (request i) = false := by
      intro i
      by_contra hi
      have : availabilityScan exceeds request (List.finRange NUMBER_OF_RESOURCES) = true :=
        hscan.mpr ⟨i, by simpa using hi⟩
      rw [hno] at this
      exact absurd this (by decide)
    refine ⟨⟨?_, ?_⟩, ⟨fun _ => ⟨hall, hsafe⟩, fun _ => ⟨_, h⟩⟩⟩
    · intro h1
      rw [h] at h1
      simp at h1
    · rintro (⟨i, hi⟩ | h1)
      · rw [hall i] at hi
        exact absurd hi (by decide)
      · rw [hsafe] at h1
        exact absurd h1 (by decide)

theorem request_beyond_need_outcome_witness :
    (∃ r, vec3 1 0 0 r > scenario.need 2 r) ∧
      ((request_resources (exceedsAddress sampleAddress) scenario 2 (vec3 1 0 0) =
            some (-1, scenario) ↔
          ((∃ i, exceedsAddress sampleAddress (vec3 1 0 0 i) = true) ∨
            safety_test scenario 2 (vec3 1 0 0) = some (-1))) ∧
        ((∃ s1, request_resources (exceedsAddress sampleAddress) scenario 2 (vec3 1 0 0) =
            some (0, s1)) ↔
          ((∀ i, exceedsAddress sampleAddress (vec3 1 0 0 i) = false) ∧
            safety_test scenario 2 (vec3 1 0 0) = some 0))) :=
  ⟨by decide,
    request_beyond_need_outcome (exceedsAddress sampleAddress) scenario 2 (vec3 1 0 0)
      (by decide)⟩

/-- C8 (counterexample): in the scenario ledger client 1 holds nothing, releases
one unit of resource 0, and `release_resources` returns 0 and applies the
release, leaving `allocation[1][0] = -1`. -/
theorem release_beyond_allocation_applied :
    (∃ r, vec3 1 0 0 r > scenario.allocation 1 r) ∧
      (release_resources scenario 1 (vec3 1 0 0)).1 = 0 ∧
      (release_resources scenario 1 (vec3 1 0 0)).2.allocation 1 0 = -1 ∧
      (release_resources scenario 1 (vec3 1 0 0)).2.available 0 = 3 :=
  ⟨by decide, by decide, by decide, by decide⟩

/-- C8 (amended): `release_resources` does not compare the release with
`allocation`.  When `release[r] > allocation[c][r]` it still returns 0 and
applies the release in `int` arithmetic; when
`allocation[c][r] - release[r]` and `available[r] + release[r]` are
representable, these are the new `allocation[c][r]`, a negative number, and the
new `available[r]`. -/
theorem release_beyond_allocation_outcome (s : Ledger) (c : Fin NUMBER_OF_CUSTOMERS)
    (release : Vec) (r : Fin NUMBER_OF_RESOURCES) (hover : release r > s.allocation c r) :
    (release_resources s c release).1 = 0 ∧
      (release_resources s c release).2.allocation c r =
        wrapInt (s.allocation c r - release r) ∧
      (release_resources s c release).2.available r = wrapInt (s.available r + release r) ∧
      (InIntRange (s.allocation c r - release r) →
        (release_resources s c release).2.allocation c r = s.allocation c r - release r ∧
          (release_resources s c release).2.allocation c r < 0) ∧
      (InIntRange (s.available r + release r) →
        (release_resources s c release).2.available r = s.available r + release r) := by
  unfold release_resources
  rw [release_all]
  refine ⟨rfl, by simp, by simp, ?_, ?_⟩
  · intro hr
    simp only [if_true]
    rw [wrapInt_of_inRange _ hr]
    exact ⟨rfl, by omega⟩
  · intro hr
    simp only
    rw [wrapInt_of_inRange _ hr]

theorem release_beyond_allocation_outcome_witness :
    vec3 1 0 0 0 > scenario.allocation 1 0 ∧
      (release_resources scenario 1 (vec3 1 0 0)).2.allocation 1 0 =
        wrapInt (scenario.allocation 1 0 - vec3 1 0 0 0) ∧
      (InIntRange (scenario.allocation 1 0 - vec3 1 0 0 0) →
        (release_resources scenario 1 (vec3 1 0 0)).2.allocation 1 0 =
            scenario.allocation 1 0 - vec3 1 0 0 0 ∧
          (release_resources scenario 1 (vec3 1 0 0)).2.allocation 1 0 < 0) :=
  ⟨by decide,
    (release_beyond_allocation_outcome scenario 1 (vec3 1 0 0) 0 (by decide)).2.1,
    (release_beyond_allocation_outcome scenario 1 (vec3 1 0 0) 0 (by decide)).2.2.2.1⟩

/-- C9 (counterexample): in the ledger `maxAvailable 0` client 0 releases the
unit it holds, which is within its allocation, and the new `available[0]` is
`INT_MIN`, not the old value `INT_MAX` plus the release. -/
theorem release_within_allocation_wraps :
    (∀ r, vec3 1 0 0 r ≤ (maxAvailable 0).allocation 0 r) ∧
      (release_resources (maxAvailable 0) 0 (vec3 1 0 0)).1 = 0 ∧
      (release_resources (maxAvailable 0) 0 (vec3 1 0 0)).2.available 0 = -2147483648 ∧
      (maxAvailable 0).available 0 + vec3 1 0 0 0 = 2147483648 :=
  ⟨by decide, by decide, by decide, by decide⟩

/-- C9 (amended): for a release with `release[r] <= allocation[c][r]` for all
`r`, `release_resources` returns 0, row `c` of `allocation` shrinks by the
release, `available` and row `c` of `need` grow by it, each computed in `int`
arithmetic and therefore exact whenever the exact value is representable; the
other rows of `allocation` and `need` and all of `maximum` are unchanged. -/
theorem release_within_allocation_effect (s : Ledger) (c : Fin NUMBER_OF_CUSTOMERS)
    (release : Vec) (_hle : ∀ r, release r ≤ s.allocation c r) :
    (release_resources s c release).1 = 0 ∧
      (∀ r, (release_resources s c release).2.allocation c r =
          wrapInt (s.allocation c r - release r) ∧
        (release_resources s c release).2.available r = wrapInt (s.available r + release r) ∧
        (release_resources s c release).2.need c r = wrapInt (s.need c r + release r)) ∧
      (∀ r, (InIntRange (s.allocation c r - release r) →
          (release_resources s c release).2.allocation c r = s.allocation c r - release r) ∧
        (InIntRange (s.available r + release r) →
          (release_resources s c release).2.available r = s.available r + release r) ∧
        (InIntRange (s.need c r + release r) →
          (release_resources s c release).2.need c r = s.need c r + release r)) ∧
      (∀ i, i ≠ c → (release_resources s c release).2.allocation i = s.allocation i ∧
        (release_resources s c release).2.need i = s.need i) ∧
      (release_resources s c release).2.maximum = s.maximum := by
  unfold release_resources
  rw [release_all]
  refine ⟨rfl, fun r => by simp, ?_, ?_, rfl⟩
  · intro r
    refine ⟨?_, ?_, ?_⟩
    · intro hr
      simp [wrapInt_of_inRange _ hr]
    · intro hr
      simp [wrapInt_of_inRange _ hr]
    · intro hr
      simp [wrapInt_of_inRange _ hr]
  · intro i hi
    constructor
    · funext j; simp [hi]
    · funext j; simp [hi]

theorem release_within_allocation_effect_witness :
    (∀ r, vec3 1 0 0 r ≤ scenario.allocation 0 r) ∧
      ((release_resources scenario 0 (vec3 1 0 0)).1 = 0 ∧
        (release_resources scenario 0 (vec3 1 0 0)).2.maximum = scenario.maximum) :=
  ⟨by decide,
    (release_within_allocation_effect scenario 0 (vec3 1 0 0) (by decide)).1,
    (release_within_allocation_effect scenario 0 (vec3 1 0 0) (by decide)).2.2.2.2⟩

/-- C10 (counterexample): in the ledger `maxAvailable 0` the units of resource 0
are `2^31`, and after client 0 releases the unit it holds they are `-2^31`:
`available[0]` overflows. -/
theorem total_units_changed_on_overflow :
    totalUnits (maxAvailable 0) 0 = 2147483648 ∧
      (release_resources (maxAvailable 0) 0 (vec3 1 0 0)).1 = 0 ∧
      totalUnits (release_resources (maxAvailable 0) 0 (vec3 1 0 0)).2 0 = -2147483648 :=
  ⟨by decide, by decide, by decide⟩

/-- C10 (amended): for every resource `r`, the sum of `allocation[i][r]` over
the customers plus `available[r]` is the same after `request_resources` (which
always returns, granted or denied) as before whenever `allocation[c][r] + v[r]`
and `available[r] - v[r]` are representable, and the same after
`release_resources` whenever `allocation[c][r] - v[r]` and `available[r] + v[r]`
are; in every case it changes by a multiple of `2^32`. -/
theorem total_units_preserved (exceeds : Int → Bool) (s : Ledger)
    (c : Fin NUMBER_OF_CUSTOMERS) (v : Vec) (r : Fin NUMBER_OF_RESOURCES) :
    (∃ res s1, request_resources exceeds s c v = some (res, s1) ∧ (res = 0 ∨ res = -1) ∧
        (InIntRange (s.allocation c r + v r) → InIntRange (s.available r - v r) →
          totalUnits s1 r = totalUnits s r) ∧
        (totalUnits s1 r - totalUnits s r) % 4294967296 = 0) ∧
      (InIntRange (s.allocation c r - v r) → InIntRange (s.available r + v r) →
        totalUnits (release_resources s c v).2 r = totalUnits s r) ∧
      (totalUnits (release_resources s c v).2 r - totalUnits s r) % 4294967296 = 0 := by
  refine ⟨?_, ?_, ?_⟩
  · rcases request_resources_cases exceeds s c v with ⟨h, _⟩ | ⟨h, _, _⟩
    · exact ⟨-1, s, h, Or.inr rfl, fun _ _ => rfl, by simp⟩
    · rw [grant_all] at h
      refine ⟨0, _, h, Or.inl rfl, ?_, ?_⟩
      · intro h1 h2
        unfold totalUnits
        simp only
        rw [sum_replace_fn (fun i => s.allocation i r) _ c, wrapInt_of_inRange _ h1,
          wrapInt_of_inRange _ h2]
        ring
      · unfold totalUnits
        simp only
        rw [sum_replace_fn (fun i => s.allocation i r) _ c]
        have h1 := wrapInt_congruent (s.allocation c r + v r)
        have h2 := wrapInt_congruent (s.available r - v r)
        omega
  · intro h1 h2
    unfold release_resources
    rw [release_all]
    unfold totalUnits
    simp only
    rw [sum_replace_fn (fun i => s.allocation i r) _ c, wrapInt_of_inRange _ h1,
      wrapInt_of_inRange _ h2]
    ring
  · unfold release_resources
    rw [release_all]
    unfold totalUnits
    simp only
    rw [sum_replace_fn (fun i => s.allocation i r) _ c]
    have h1 := wrapInt_congruent (s.allocation c r - v r)
    have h2 := wrapInt_congruent (s.available r + v r)
    omega

theorem total_units_preserved_witness :
    InIntRange (scenario.allocation 0 0 - vec3 1 0 0 0) ∧
      InIntRange (scenario.available 0 + vec3 1 0 0 0) ∧
      totalUnits (release_resources scenario 0 (vec3 1 0 0)).2 0 = totalUnits scenario 0 :=
  ⟨by decide, by decide,
    (total_units_preserved (exceedsAddress sampleAddress) scenario 0 (vec3 1 0 0) 0).2.1
      (by decide) (by decide)⟩

/-- C11 (counterexample): in the ledger `fullClient`, where
`need = maximum - allocation` holds everywhere, the request `[1,0,0]` of client
0 is granted and leaves `need[0][0] = -1` while
`maximum[0][0] - allocation[0][0]` is `2^32 - 1`. -/
theorem need_relation_broken_on_overflow :
    (∀ i r, fullClient.need i r = fullClient.maximum i r - fullClient.allocation i r) ∧
      request_resources (exceedsAddress sampleAddress) fullClient 0 (vec3 1 0 0) =
        some (0, (List.finRange NUMBER_OF_RESOURCES).foldl (grantStep 0 (vec3 1 0 0)) fullClient) ∧
      ((List.finRange NUMBER_OF_RESOURCES).foldl
        (grantStep 0 (vec3 1 0 0)) fullClient).need 0 0 = -1 ∧
      ((List.finRange NUMBER_OF_RESOURCES).foldl
          (grantStep 0 (vec3 1 0 0)) fullClient).maximum 0 0 -
        ((List.finRange NUMBER_OF_RESOURCES).foldl
          (grantStep 0 (vec3 1 0 0)) fullClient).allocation 0 0 = 4294967295 :=
  ⟨by decide, rfl, by decide, by decide⟩

/-- C11 (amended): if `need[i][r] = maximum[i][r] - allocation[i][r]` holds
everywhere before a call, it holds everywhere after `request_resources` (which
returns, granted or denied) when `allocation[c][r] + v[r]` and
`need[c][r] - v[r]` are representable for all `r`, and after
`release_resources` when `allocation[c][r] - v[r]` and `need[c][r] + v[r]`
are. -/
theorem need_relation_preserved (exceeds : Int → Bool) (s : Ledger)
    (c : Fin NUMBER_OF_CUSTOMERS) (v : Vec)
    (hneed : ∀ i r, s.need i r = s.maximum i r - s.allocation i r) :
    (∃ res s1, request_resources exceeds s c v = some (res, s1) ∧ (res = 0 ∨ res = -1) ∧
        (InRangeCall s (Call.request c v) →
          ∀ i r, s1.need i r = s1.maximum i r - s1.allocation i r)) ∧
      (InRangeCall s (Call.release c v) →
        ∀ i r, (release_resources s c v).2.need i r =
          (release_resources s c v).2.maximum i r -
            (release_resources s c v).2.allocation i r) := by
  constructor
  · rcases request_resources_cases exceeds s c v with ⟨h, _⟩ | ⟨h, _, _⟩
    · exact ⟨-1, s, h, Or.inr rfl, fun _ => hneed⟩
    · refine ⟨0, _, h, Or.inl rfl, ?_⟩
      rw [grant_all]
      intro hr i r
      have h1 := hneed i r
      have h2 : InIntRange (s.allocation c r + v r) ∧ InIntRange (s.need c r - v r) := hr r
      by_cases hi : i = c
      · simp only [hi, if_true]
        rw [wrapInt_of_inRange _ h2.1, wrapInt_of_inRange _ h2.2]
        rw [hi] at h1
        omega
      · simp only [hi, if_false]
        exact h1
  · unfold release_resources
    rw [release_all]
    intro hr i r
    have h1 := hneed i r
    have h2 : InIntRange (s.allocation c r - v r) ∧ InIntRange (s.need c r + v r) := hr r
    by_cases hi : i = c
    · simp only [hi, if_true]
      rw [wrapInt_of_inRange _ h2.1, wrapInt_of_inRange _ h2.2]
      rw [hi] at h1
      omega
    · simp only [hi, if_false]
      exact h1

theorem need_relation_preserved_witness :
    (∀ i r, scenario.need i r = scenario.maximum i r - scenario.allocation i r) ∧
      InRangeCall scenario (Call.release 1 (vec3 1 0 0)) ∧
      (∀ i r, (release_resources scenario 1 (vec3 1 0 0)).2.need i r =
        (release_resources scenario 1 (vec3 1 0 0)).2.maximum i r -
          (release_resources scenario 1 (vec3 1 0 0)).2.allocation i r) :=
  ⟨by decide, by decide,
    (need_relation_preserved (exceedsAddress sampleAddress) scenario 1 (vec3 1 0 0)
      (by decide)).2 (by decide)⟩

/-! ## Sequences of calls -/

theorem afterCall_request (exceeds : Int → Bool) (s : Ledger) (c : Fin NUMBER_OF_CUSTOMERS)
    (v : Vec) :
    (afterCall exceeds s (Call.request c v) = some s ∧
        (availabilityScan exceeds v (List.finRange NUMBER_OF_RESOURCES) = true ∨
          safety_test s c v = some (-1))) ∨
      (afterCall exceeds s (Call.request c v) =
          some { available := fun j => wrapInt (s.available j - v j)
                 maximum := s.maximum
                 allocation := fun k j =>
                   if k = c then wrapInt (s.allocation k j + v j) else s.allocation k j
                 need := fun k j => if k = c then wrapInt (s.need k j - v j) else s.need k j } ∧
        safety_test s c v = some 0) := by
  rcases request_resources_cases exceeds s c v with ⟨h, hwhy⟩ | ⟨h, _, hsafe⟩
  · left
    exact ⟨by simp [afterCall, h], hwhy⟩
  · right
    rw [grant_all] at h
    exact ⟨by simp [afterCall, h], hsafe⟩

theorem afterCall_release (exceeds : Int → Bool) (s : Ledger) (c : Fin NUMBER_OF_CUSTOMERS)
    (v : Vec) :
    afterCall exceeds s (Call.release c v) =
      some { available := fun j => wrapInt (s.available j + v j)
             maximum := s.maximum
             allocation := fun k j =>
               if k = c then wrapInt (s.allocation k j - v j) else s.allocation k j
             need := fun k j => if k = c then wrapInt (s.need k j + v j) else s.need k j } := by
  simp [afterCall, release_resources, release_all]

/-- An invariant kept by every call that satisfies `P` holds in every ledger of
a run whose calls satisfy `P`; the run produces a ledger for every call. -/
theorem runCalls_invariant (exceeds : Int → Bool) (P : Ledger → Call → Prop) (J : Ledger → Prop)
    (hstep : ∀ s call, J s → P s call → ∃ s1, afterCall exceeds s call = some s1 ∧ J s1)
    (calls : List Call) :
    ∀ s, J s → CallsWithin P exceeds s calls →
      ∃ l, runCalls exceeds s calls = some l ∧ l.length = calls.length ∧ ∀ s1 ∈ l, J s1 := by
  induction calls with
  | nil =>
    intro s _ _
    exact ⟨[], rfl, rfl, by simp⟩
  | cons call rest ih =>
    intro s hJ hcalls
    obtain ⟨hP, hrest⟩ := hcalls
    obtain ⟨s1, hs1, hJ1⟩ := hstep s call hJ hP
    rw [hs1] at hrest
    obtain ⟨l, hl, hlen, hall⟩ := ih s1 hJ1 hrest
    refine ⟨s1 :: l, ?_, by simp [hlen], ?_⟩
    · simp [runCalls, hs1, hl]
    · intro s2 hs2
      rcases List.mem_cons.mp hs2 with h | h
      · rw [h]; exact hJ1
      · exact hall s2 h

theorem bounded_call_step (exceeds : Int → Bool) (s : Ledger) (call : Call)
    (hJ : (∀ i r, s.need i r = s.maximum i r - s.allocation i r) ∧ (∀ i r, 0 ≤ s.need i r))
    (hP : BoundedInRangeCall s call) :
    ∃ s1, afterCall exceeds s call = some s1 ∧
      ((∀ i r, s1.need i r = s1.maximum i r - s1.allocation i r) ∧ (∀ i r, 0 ≤ s1.need i r)) := by
  obtain ⟨hneed, hpos⟩ := hJ
  obtain ⟨hB, hR⟩ := hP
  cases call with
  | request c v =>
    rcases afterCall_request exceeds s c v with ⟨h, _⟩ | ⟨h, _⟩
    · exact ⟨s, h, hneed, hpos⟩
    · refine ⟨_, h, ?_, ?_⟩
      · intro i r
        have h1 := hneed i r
        have h2 : InIntRange (s.allocation c r + v r) ∧ InIntRange (s.need c r - v r) := hR r
        by_cases hi : i = c
        · simp only [hi, if_true]
          rw [wrapInt_of_inRange _ h2.1, wrapInt_of_inRange _ h2.2]
          rw [hi] at h1
          omega
        · simp only [hi, if_false]
          exact h1
      · intro i r
        have h1 := hpos i r
        have h2 : InIntRange (s.allocation c r + v r) ∧ InIntRange (s.need c r - v r) := hR r
        have h3 : v r ≤ s.need c r := hB r
        by_cases hi : i = c
        · simp only [hi, if_true]
          rw [wrapInt_of_inRange _ h2.2]
          omega
        · simp only [hi, if_false]
          exact h1
  | release c v =>
    refine ⟨_, afterCall_release exceeds s c v, ?_, ?_⟩
    · intro i r
      have h1 := hneed i r
      have h2 : InIntRange (s.allocation c r - v r) ∧ InIntRange (s.need c r + v r) := hR r
      by_cases hi : i = c
      · simp only [hi, if_true]
        rw [wrapInt_of_inRange _ h2.1, wrapInt_of_inRange _ h2.2]
        rw [hi] at h1
        omega
      · simp only [hi, if_false]
        exact h1
    · intro i r
      have h1 := hpos i r
      have h2 : InIntRange (s.allocation c r - v r) ∧ InIntRange (s.need c r + v r) := hR r
      have h3 : 0 ≤ v r := hB r
      by_cases hi : i = c
      · simp only [hi, if_true]
        rw [wrapInt_of_inRange _ h2.2]
        rw [hi] at h1
        omega
      · simp only [hi, if_false]
        exact h1

/-- C12 (counterexample): from the scenario ledger, which satisfies the start
condition, the single call in which client 2 requests one unit of resource 0 is
granted and leaves `need[2][0] = -1` and `allocation[2][0] = 1 > maximum[2][0]`. -/
theorem bounds_broken_by_request_beyond_need :
    StartInvariants scenario ∧
      ∃ l s1, runCalls (exceedsAddress sampleAddress) scenario [Call.request 2 (vec3 1 0 0)] =
          some l ∧ s1 ∈ l ∧ s1.need 2 0 < 0 ∧ s1.maximum 2 0 < s1.allocation 2 0 :=
  ⟨by decide,
    [(List.finRange NUMBER_OF_RESOURCES).foldl (grantStep 2 (vec3 1 0 0)) scenario],
    (List.finRange NUMBER_OF_RESOURCES).foldl (grantStep 2 (vec3 1 0 0)) scenario,
    rfl, List.mem_singleton_self _, by decide, by decide⟩

/-- C12 (amended): from a ledger with `0 <= allocation <= maximum` and
`need = maximum - allocation >= 0`, along every sequence of calls in which each
request has `request[r] <= need[c][r]`, each release has `release[r] >= 0` and
the cells of `allocation` and `need` each call writes stay representable, every
call returns and `allocation <= maximum` and `need >= 0` hold after each
call. -/
theorem bounds_hold_along_bounded_calls (exceeds : Int → Bool) (s : Ledger) (calls : List Call)
    (hstart : StartInvariants s) (hcalls : CallsWithin BoundedInRangeCall exceeds s calls) :
    ∃ l, runCalls exceeds s calls = some l ∧ l.length = calls.length ∧
      ∀ s1 ∈ l, BoundsHold s1 := by
  have hJ : (∀ i r, s.need i r = s.maximum i r - s.allocation i r) ∧ (∀ i r, 0 ≤ s.need i r) :=
    ⟨fun i r => (hstart.2 i r).1, fun i r => (hstart.2 i r).2⟩
  obtain ⟨l, hl, hlen, hall⟩ := runCalls_invariant exceeds BoundedInRangeCall _
    (bounded_call_step exceeds) calls s hJ hcalls
  refine ⟨l, hl, hlen, ?_⟩
  intro s1 hs1
  obtain ⟨hneed, hpos⟩ := hall s1 hs1
  refine ⟨?_, hpos⟩
  intro i r
  have h1 := hneed i r
  have h2 := hpos i r
  omega

theorem bounds_hold_along_bounded_calls_witness :
    StartInvariants scenario ∧
      CallsWithin BoundedInRangeCall (exceedsAddress sampleAddress) scenario
        [Call.request 1 (vec3 1 0 0), Call.release 1 (vec3 1 0 0)] ∧
      ∃ l, runCalls (exceedsAddress sampleAddress) scenario
          [Call.request 1 (vec3 1 0 0), Call.release 1 (vec3 1 0 0)] = some l ∧
        l.length = [Call.request 1 (vec3 1 0 0), Call.release 1 (vec3 1 0 0)].length ∧
        ∀ s1 ∈ l, BoundsHold s1 :=
  ⟨by decide, ⟨by decide, ⟨by decide, trivial⟩⟩,
    bounds_hold_along_bounded_calls (exceedsAddress sampleAddress) scenario
      [Call.request 1 (vec3 1 0 0), Call.release 1 (vec3 1 0 0)] (by decide)
      ⟨by decide, ⟨by decide, trivial⟩⟩⟩

/-! ## Release and reordering -/

/-- A chain that does not contain `c` survives any change to the rows of `c`
and any increase of what is free. -/
theorem chain_congr_of_not_mem (need alloc need1 alloc1 : Mat) (c : Fin NUMBER_OF_CUSTOMERS)
    (hother : ∀ k, k ≠ c → need1 k = need k ∧ alloc1 k = alloc k)
    (l : List (Fin NUMBER_OF_CUSTOMERS)) :
    ∀ w w1 : Vec, c ∉ l → (∀ j, w j ≤ w1 j) → Chain need alloc w l → Chain need1 alloc1 w1 l := by
  induction l with
  | nil => intro _ _ _ _ _; trivial
  | cons x l ih =>
    intro w w1 hc hw hch
    obtain ⟨hx, hrest⟩ := hch
    have hxc : x ≠ c := fun h => hc (by simp [h])
    have hcl : c ∉ l := fun h => hc (List.mem_cons_of_mem x h)
    obtain ⟨hn, ha⟩ := hother x hxc
    refine ⟨?_, ih _ _ hcl ?_ hrest⟩
    · intro j
      rw [hn]
      exact le_trans (hx j) (hw j)
    · intro j
      rw [ha]
      have := hw j
      omega

/-- A chain survives customer `c` handing back `q`: `c` then holds `q` less and
needs `q` more, while `q` more is free. -/
theorem chain_release (need alloc need1 alloc1 : Mat) (c : Fin NUMBER_OF_CUSTOMERS) (q : Vec)
    (hq : ∀ j, 0 ≤ q j)
    (hother : ∀ k, k ≠ c → need1 k = need k ∧ alloc1 k = alloc k)
    (hneed : ∀ j, need1 c j = need c j + q j) (halloc : ∀ j, alloc1 c j = alloc c j - q j)
    (l : List (Fin NUMBER_OF_CUSTOMERS)) :
    ∀ w w1 : Vec, l.Nodup → (∀ j, w j + q j ≤ w1 j) → Chain need alloc w l →
      Chain need1 alloc1 w1 l := by
  induction l with
  | nil => intro _ _ _ _ _; trivial
  | cons x l ih =>
    intro w w1 hnd hw hch
    obtain ⟨hx, hrest⟩ := hch
    obtain ⟨hxl, hndl⟩ := List.nodup_cons.mp hnd
    by_cases hxc : x = c
    · subst hxc
      refine ⟨?_, ?_⟩
      · intro j
        rw [hneed j]
        have h1 := hx j
        have h2 := hw j
        omega
      · apply chain_congr_of_not_mem need alloc need1 alloc1 x hother l _ _ hxl _ hrest
        intro j
        rw [halloc j]
        have := hw j
        omega
    · obtain ⟨hn, ha⟩ := hother x hxc
      refine ⟨?_, ih _ _ hndl ?_ hrest⟩
      · intro j
        rw [hn]
        have h1 := hx j
        have h2 := hw j
        have h3 := hq j
        omega
      · intro j
        rw [ha]
        have := hw j
        omega

/-- A fitting ledger stays fitting when a request between 0 and both `need[c]`
and `available` is applied. -/
theorem fitting_grant_invariants (s : Ledger) (c : Fin NUMBER_OF_CUSTOMERS) (request : Vec)
    (hfi : FittingInvariants s) (hreq : ∀ r, 0 ≤ request r ∧ request r ≤ s.need c r)
    (hle : ∀ r, request r ≤ s.available r) :
    FittingInvariants
      { available := fun j => s.available j - request j
        maximum := s.maximum
        allocation := fun k j => if k = c then s.allocation k j + request j else s.allocation k j
        need := fun k j => if k = c then s.need k j - request j else s.need k j } := by
  obtain ⟨⟨halloc, hneed, hav⟩, hmax, htot⟩ := hfi
  refine ⟨⟨?_, ?_, ?_⟩, hmax, ?_⟩
  · intro i r
    have h1 := halloc i r
    have h2 := hreq r
    have h3 := hneed c r
    by_cases hi : i = c
    · simp only [hi, if_true]
      rw [hi] at h1
      constructor <;> omega
    · simp only [hi, if_false]
      exact h1
  · intro i r
    have := hneed i r
    by_cases hi : i = c
    · simp only [hi, if_true]
      rw [hi] at this
      omega
    · simp only [hi, if_false]
      exact this
  · intro r
    have := hle r
    show 0 ≤ s.available r - request r
    omega
  · intro j
    have h1 := htot j
    unfold totalUnits at h1 ⊢
    simp only
    rw [sum_bump (fun i => s.allocation i j) c (request j)]
    omega

/-- A fitting ledger stays fitting when a release between 0 and `allocation[c]`
is applied. -/
theorem fitting_release_invariants (s : Ledger) (c : Fin NUMBER_OF_CUSTOMERS) (release : Vec)
    (hfi : FittingInvariants s) (hrel : ∀ r, 0 ≤ release r ∧ release r ≤ s.allocation c r) :
    FittingInvariants
      { available := fun j => s.available j + release j
        maximum := s.maximum
        allocation := fun k j => if k = c then s.allocation k j - release j else s.allocation k j
        need := fun k j => if k = c then s.need k j + release j else s.need k j } := by
  obtain ⟨⟨halloc, hneed, hav⟩, hmax, htot⟩ := hfi
  refine ⟨⟨?_, ?_, ?_⟩, hmax, ?_⟩
  · intro i r
    have h1 := halloc i r
    have h2 := hrel r
    by_cases hi : i = c
    · simp only [hi, if_true]
      rw [hi] at h1
      constructor <;> omega
    · simp only [hi, if_false]
      exact h1
  · intro i r
    have := hneed i r
    by_cases hi : i = c
    · simp only [hi, if_true]
      rw [hi] at this
      omega
    · simp only [hi, if_false]
      exact this
  · intro r
    have h1 := hav r
    have h2 := hrel r
    show 0 ≤ s.available r + release r
    omega
  · intro j
    have h1 := htot j
    unfold totalUnits at h1 ⊢
    simp only
    have h := sum_bump (fun i => s.allocation i j) c (- release j)
    simp only [← sub_eq_add_neg] at h
    rw [h]
    omega

theorem zeroVec_bounds : ∀ r, 0 ≤ zeroVec r ∧ zeroVec r ≤ INT_MAX := by
  intro r
  simp [zeroVec, INT_MAX]

/-- C13 (counterexample): the ledger `maxAvailable 4` satisfies the data-model
invariants and `safety_test` returns 0 on it; client 4 releases the unit it
holds, `available[0]` overflows to `INT_MIN`, and `safety_test` returns -1 on
the ledger after the release. -/
theorem release_makes_unsafe_on_overflow :
    DataInvariants (maxAvailable 4) ∧ safety_test (maxAvailable 4) 0 zeroVec = some 0 ∧
      (∀ r, 0 ≤ vec3 1 0 0 r ∧ vec3 1 0 0 r ≤ (maxAvailable 4).allocation 4 r) ∧
      (release_resources (maxAvailable 4) 4 (vec3 1 0 0)).2.available 0 = INT_MIN ∧
      safety_test (release_resources (maxAvailable 4) 4 (vec3 1 0 0)).2 0 zeroVec = some (-1) :=
  ⟨by decide, by decide, by decide, by decide, by decide⟩

/-- C13 (amended): on a ledger that satisfies the data-model invariants, fits
the `int` type and is safe, a release with `0 <= release[r] <= allocation[c][r]`
for all `r` leaves a ledger that is safe: `safety_test` with the all-zero
request returns 0 on it. -/
theorem release_keeps_safe (s : Ledger) (c c0 c1 : Fin NUMBER_OF_CUSTOMERS) (release : Vec)
    (hinv : DataInvariants s) (hfit : LedgerFits s)
    (hsafe : safety_test s c0 zeroVec = some 0)
    (hrel : ∀ r, 0 ≤ release r ∧ release r ≤ s.allocation c r) :
    safety_test (release_resources s c release).2 c1 zeroVec = some 0 := by
  have hfi : FittingInvariants s := ⟨data_invariants_customer s hinv, hfit⟩
  obtain ⟨hinit, hsum⟩ := fitting_request s zeroVec hfi zeroVec_bounds
  have halloc : ∀ i j, 0 ≤ s.allocation i j := fun i j => (hfi.1.1 i j).1
  rcases safety_test_cases_exact s c0 zeroVec halloc hinit hsum with
    h1 | ⟨_, l, hnd, hall, hpos⟩
  · rw [h1] at hsafe
    exact absurd hsafe (by decide)
  · have hch := (chain_iff_positions (fun i j => s.maximum i j - s.allocation i j) s.allocation l
      (fun j => s.available j - zeroVec j)).mpr hpos
    have hs1 : (release_resources s c release).2 =
        { available := fun j => s.available j + release j
          maximum := s.maximum
          allocation := fun k j =>
            if k = c then s.allocation k j - release j else s.allocation k j
          need := fun k j => if k = c then s.need k j + release j else s.need k j } := by
      unfold release_resources
      exact fitting_release s c release hfi hrel
    have hfi1 := fitting_release_invariants s c release hfi hrel
    obtain ⟨hinit1, hsum1⟩ := fitting_request _ zeroVec hfi1 zeroVec_bounds
    rw [hs1]
    apply safety_test_complete _ c1 zeroVec (fun i j => (hfi1.1.1 i j).1) hinit1 hsum1 l
    refine ⟨hnd, hall, (chain_iff_positions (fun i j => s.maximum i j -
      (if i = c then s.allocation i j - release j else s.allocation i j))
      (fun k j => if k = c then s.allocation k j - release j else s.allocation k j) l
      (fun j => s.available j + release j - zeroVec j)).mp ?_⟩
    apply chain_release _ _ _ _ c release (fun j => (hrel j).1) _ _ _ l _ _ hnd _ hch
    · intro k hk
      constructor
      · funext j; simp [hk]
      · funext j; simp [hk]
    · intro j
      simp only [if_true]
      omega
    · intro j
      simp
    · intro j
      simp [zeroVec]

theorem release_keeps_safe_witness :
    DataInvariants scenario ∧ LedgerFits scenario ∧ safety_test scenario 0 zeroVec = some 0 ∧
      (∀ r, 0 ≤ vec3 1 0 0 r ∧ vec3 1 0 0 r ≤ scenario.allocation 0 r) ∧
      safety_test (release_resources scenario 0 (vec3 1 0 0)).2 0 zeroVec = some 0 :=
  ⟨by decide, by decide, by decide, by decide,
    release_keeps_safe scenario 0 0 0 (vec3 1 0 0) (by decide) (by decide) (by decide)
      (by decide)⟩

theorem chain_map (need alloc : Mat) (p : Fin NUMBER_OF_CUSTOMERS → Fin NUMBER_OF_CUSTOMERS)
    (l : List (Fin NUMBER_OF_CUSTOMERS)) :
    ∀ w : Vec, Chain (fun i => need (p i)) (fun i => alloc (p i)) w l ↔
      Chain need alloc w (l.map p) := by
  induction l with
  | nil => intro w; simp [Chain]
  | cons x l ih =>
    intro w
    simp only [List.map_cons, Chain]
    exact and_congr_right fun _ => ih _

/-- A completion ordering of the reordered ledger, read through the
permutation, is one of the original ledger. -/
theorem completionOrdering_permute (p : Equiv.Perm (Fin NUMBER_OF_CUSTOMERS)) (s : Ledger)
    (request : Vec) (l : List (Fin NUMBER_OF_CUSTOMERS))
    (h : CompletionOrdering (permuteCustomers p s) request l) :
    CompletionOrdering s request (l.map p) := by
  obtain ⟨hnd, hall, hpos⟩ := h
  refine ⟨hnd.map p.injective, ?_, (chain_iff_positions
    (fun i j => s.maximum i j - s.allocation i j) s.allocation (l.map p)
    (fun j => s.available j - request j)).mp ?_⟩
  · intro i
    exact List.mem_map.mpr ⟨p.symm i, hall _, by simp⟩
  · have hch := (chain_iff_positions
      (fun i j => s.maximum (p i) j - s.allocation (p i) j) (fun i => s.allocation (p i)) l
      (fun j => s.available j - request j)).mpr hpos
    exact (chain_map (fun i j => s.maximum i j - s.allocation i j) s.allocation p l _).mp hch

theorem permuteCustomers_symm (p : Equiv.Perm (Fin NUMBER_OF_CUSTOMERS)) (s : Ledger) :
    permuteCustomers p.symm (permuteCustomers p s) = s := by
  simp [permuteCustomers]

/-- C14 (counterexample): in the ledger `twoLargeHolders` every allocation is
non-negative; scanned in the order 0, 1, 2, 3, 4 `safety_test` returns -1, and
on the ledger with the rows reordered to 3, 4, 2, 0, 1 it returns 0: the
overflow of `temp_available` then comes after the last test. -/
theorem safety_test_depends_on_order_on_overflow :
    (∀ i j, 0 ≤ twoLargeHolders.allocation i j) ∧
      safety_test twoLargeHolders 0 zeroVec = some (-1) ∧
      safety_test (permuteCustomers ((Equiv.swap 0 3).trans (Equiv.swap 1 4)) twoLargeHolders)
        0 zeroVec = some 0 :=
  ⟨by decide, by decide, by decide⟩

/-- C14 (amended): on a ledger with non-negative allocation entries on which
the simulation does not overflow, `safety_test` gives the same verdict on the
ledger whose customer rows are reordered by a permutation as on the original
ledger. -/
theorem safety_test_permutation_invariant (p : Equiv.Perm (Fin NUMBER_OF_CUSTOMERS))
    (s : Ledger) (c1 c2 : Fin NUMBER_OF_CUSTOMERS) (request : Vec)
    (halloc : ∀ i j, 0 ≤ s.allocation i j) (hinit : InitInRange s request)
    (hsum : SumsInRange s request) :
    safety_test (permuteCustomers p s) c1 request = safety_test s c2 request := by
  have hinitp : InitInRange (permuteCustomers p s) request :=
    ⟨hinit.1, fun i j => hinit.2 (p i) j⟩
  have hsump : SumsInRange (permuteCustomers p s) request := by
    intro j
    have h1 := hsum j
    have h2 : Finset.univ.sum (fun i => (permuteCustomers p s).allocation i j) =
        Finset.univ.sum (fun i => s.allocation i j) :=
      Equiv.sum_comp p (fun i => s.allocation i j)
    rw [h2]
    exact h1
  have hallocp : ∀ i j, 0 ≤ (permuteCustomers p s).allocation i j := fun i j => halloc (p i) j
  rcases safety_test_cases_exact (permuteCustomers p s) c1 request hallocp hinitp hsump with
    h1 | ⟨h1, l1, hl1⟩
  · rcases safety_test_cases_exact s c2 request halloc hinit hsum with h2 | ⟨_, l2, hl2⟩
    · rw [h1, h2]
    · exfalso
      have hperm : CompletionOrdering (permuteCustomers p s) request (l2.map p.symm) := by
        apply completionOrdering_permute p.symm (permuteCustomers p s)
        rw [permuteCustomers_symm]
        exact hl2
      have h3 := safety_test_complete (permuteCustomers p s) c1 request hallocp hinitp hsump
        _ hperm
      rw [h1] at h3
      exact absurd h3 (by decide)
  · have h2 := safety_test_complete s c2 request halloc hinit hsum _
      (completionOrdering_permute p s request l1 hl1)
    rw [h1, h2]

theorem safety_test_permutation_invariant_witness :
    (∀ i j, 0 ≤ scenario.allocation i j) ∧ InitInRange scenario (vec3 1 2 0) ∧
      SumsInRange scenario (vec3 1 2 0) ∧
      safety_test (permuteCustomers (Equiv.swap 0 1) scenario) 0 (vec3 1 2 0) =
        safety_test scenario 0 (vec3 1 2 0) :=
  ⟨by decide, by decide, by decide,
    safety_test_permutation_invariant (Equiv.swap 0 1) scenario 0 0 (vec3 1 2 0) (by decide)
      (by decide) (by decide)⟩

/-! ## Frame and termination of `safety_test` -/

theorem exec_fold {ι : Type} (g : Ledger → Locals → ι → Locals) (L : List ι) :
    ∀ m : Machine, L.foldl (fun m i => { m with locals := g m.ledger m.locals i }) m =
      { ledger := m.ledger, locals := L.foldl (g m.ledger) m.locals } := by
  induction L with
  | nil => intro m; rfl
  | cons a L ih =>
    intro m
    rw [List.foldl_cons, ih]
    rfl

theorem execInit_eq (m : Machine) (c : Fin NUMBER_OF_CUSTOMERS) (request : Vec) :
    execInit m c request =
      { ledger := m.ledger, locals := initLocals m.locals m.ledger c request } := by
  have h1 : ∀ m1 : Machine,
      (List.finRange NUMBER_OF_RESOURCES).foldl (execInitStep c request) m1 =
        { ledger := m1.ledger
          locals := (List.finRange NUMBER_OF_RESOURCES).foldl
            (initStep m1.ledger c request) m1.locals } :=
    fun m1 => exec_fold (fun s t i => initStep s c request t i) _ m1
  have h2 : (fun (m1 : Machine) (i : Fin NUMBER_OF_CUSTOMERS) =>
      (List.finRange NUMBER_OF_RESOURCES).foldl (execCopyStep i) m1) =
      fun m1 i => { m1 with locals := (fun s t i =>
        (List.finRange NUMBER_OF_RESOURCES).foldl (copyStep s i) t) m1.ledger m1.locals i } := by
    funext m1 i
    exact exec_fold (fun s t j => copyStep s i t j) _ m1
  unfold execInit
  simp only [h1, h2, exec_fold]
  rfl

theorem execPass_eq (m : Machine) :
    execPass m = { ledger := m.ledger, locals := scanPass m.locals } := by
  unfold execPass execScanCustomer
  rw [exec_fold (fun _ t i => scanCustomer t i)]
  rfl

theorem execWhile_eq (fuel : Nat) :
    ∀ m : Machine, (execWhile fuel m = none ∧ whileLoop fuel m.locals = none) ∨
      ∃ v m1, execWhile fuel m = some (v, m1) ∧ m1.ledger = m.ledger ∧
        whileLoop fuel m.locals = some v := by
  induction fuel with
  | zero => intro m; left; exact ⟨rfl, rfl⟩
  | succ fuel ih =>
    intro m
    unfold execWhile whileLoop
    by_cases hlt : m.locals.num_finished < NUMBER_OF_CUSTOMERS
    · simp only [hlt, if_true, execPass_eq]
      by_cases hz : (scanPass m.locals).num_satisfied = 0
      · right
        exact ⟨-1, { ledger := m.ledger, locals := scanPass m.locals }, by simp [hz], rfl,
          by simp [hz]⟩
      · simp only [hz, if_false]
        exact ih { ledger := m.ledger, locals := scanPass m.locals }
    · right
      exact ⟨0, m, by simp [hlt], rfl, by simp [hlt]⟩

/-- The `while` loop reads only the three local arrays and `num_finished`. -/
theorem whileLoop_congr (fuel : Nat) (t u : Locals) (h1 : t.temp_available = u.temp_available)
    (h2 : t.temp_need = u.temp_need) (h3 : t.temp_allocation = u.temp_allocation)
    (h4 : t.num_finished = u.num_finished) : whileLoop fuel t = whileLoop fuel u := by
  cases fuel with
  | zero => rfl
  | succ fuel =>
    have hpass : scanPass t = scanPass u := by
      unfold scanPass
      have : ({ t with num_satisfied := 0 } : Locals) = { u with num_satisfied := 0 } := by
        cases t
        cases u
        simp_all
      rw [this]
    unfold whileLoop
    rw [hpass, h4]

/-- The value `safety_test` returns does not depend on what its local arrays
held on entry. -/
theorem safety_test_from_any_locals (t0 : Locals) (s : Ledger) (c : Fin NUMBER_OF_CUSTOMERS)
    (request : Vec) :
    whileLoop (NUMBER_OF_CUSTOMERS + 1) (initLocals t0 s c request) = safety_test s c request := by
  obtain ⟨a1, a2, a3, a4⟩ := initLocals_eq t0 s c request
  obtain ⟨b1, b2, b3, b4⟩ := initLocals_eq blankLocals s c request
  unfold safety_test
  exact whileLoop_congr _ _ _ (a1.trans b1.symm) (a3.trans b3.symm) (a2.trans b2.symm)
    (a4.trans b4.symm)

theorem safety_test_exec_spec (m : Machine) (c : Fin NUMBER_OF_CUSTOMERS) (request : Vec) :
    ∃ v m1, safety_test_exec m c request = some (v, m1) ∧ m1.ledger = m.ledger ∧
      safety_test m.ledger c request = some v := by
  unfold safety_test_exec
  rw [execInit_eq]
  have hval := safety_test_from_any_locals m.locals m.ledger c request
  rcases execWhile_eq (NUMBER_OF_CUSTOMERS + 1)
    { ledger := m.ledger, locals := initLocals m.locals m.ledger c request } with
    ⟨_, h⟩ | ⟨v, m1, h1, h2, h3⟩
  · simp only at h
    rw [hval] at h
    rcases safety_test_cases m.ledger c request with h0 | ⟨h0, _⟩
    · rw [h0] at h
      exact absurd h (by simp)
    · rw [h0] at h
      exact absurd h (by simp)
  · simp only at h3
    rw [hval] at h3
    exact ⟨v, m1, h1, h2, h3⟩

/-- C15: `safety_test` leaves `available`, `maximum`, `allocation` and `need`
as they were, and a second call with the same arguments, started on the memory
the first call left, returns the same value and again leaves the ledger as it
was. -/
theorem safety_test_no_side_effects (m : Machine) (customer_num : Fin NUMBER_OF_CUSTOMERS)
    (request : Vec) :
    ∃ v m1, safety_test_exec m customer_num request = some (v, m1) ∧
      m1.ledger.available = m.ledger.available ∧ m1.ledger.maximum = m.ledger.maximum ∧
      m1.ledger.allocation = m.ledger.allocation ∧ m1.ledger.need = m.ledger.need ∧
      ∃ m2, safety_test_exec m1 customer_num request = some (v, m2) ∧ m2.ledger = m.ledger := by
  obtain ⟨v, m1, h1, h2, h3⟩ := safety_test_exec_spec m customer_num request
  obtain ⟨w, m2, k1, k2, k3⟩ := safety_test_exec_spec m1 customer_num request
  rw [h2, h3] at k3
  have hvw : v = w := by simpa using k3
  subst hvw
  exact ⟨v, m1, h1, by rw [h2], by rw [h2], by rw [h2], by rw [h2], m2, k1, k2.trans h2⟩

theorem whileLoopPasses_spec (w0 : Vec) (alloc need : Mat) (fuel : Nat) :
    ∀ (t : Locals) (done : List (Fin NUMBER_OF_CUSTOMERS)), SimInv w0 alloc need done t →
      NUMBER_OF_CUSTOMERS + 1 ≤ fuel + done.length →
      ∃ v n, whileLoopPasses fuel t = some (v, n) ∧ whileLoop fuel t = some v ∧
        (v = 0 ∨ v = -1) ∧ n + done.length ≤ NUMBER_OF_CUSTOMERS := by
  induction fuel with
  | zero =>
    intro t done hinv hfuel
    have := nodup_length_le done hinv.1
    omega
  | succ fuel ih =>
    intro t done hinv hfuel
    have hlen := nodup_length_le done hinv.1
    have hnum := hinv.2.2.1
    unfold whileLoopPasses whileLoop
    by_cases hlt : t.num_finished < NUMBER_OF_CUSTOMERS
    · simp only [hlt, if_true]
      obtain ⟨ext, hinv1, hsat, _⟩ := scanPass_spec w0 alloc need t done hinv
      by_cases hz : (scanPass t).num_satisfied = 0
      · refine ⟨-1, 1, by simp [hz], by simp [hz], Or.inr rfl, ?_⟩
        omega
      · simp only [hz, if_false]
        obtain ⟨v, n, h1, h2, h3, h4⟩ := ih (scanPass t) (done ++ ext) hinv1
          (by rw [List.length_append]; omega)
        refine ⟨v, n + 1, by simp [h1], h2, h3, ?_⟩
        rw [List.length_append] at h4
        omega
    · refine ⟨0, 0, by simp [hlt], by simp [hlt], Or.inl rfl, ?_⟩
      omega

/-- C16: on every ledger, valid or not, `safety_test` returns 0 or -1 after at
most `NUMBER_OF_CUSTOMERS` passes through the body of its `while` loop. -/
theorem safety_test_terminates_within_passes (s : Ledger)
    (customer_num : Fin NUMBER_OF_CUSTOMERS) (request : Vec) :
    ∃ v n, safetyTestPasses s customer_num request = some (v, n) ∧
      safety_test s customer_num request = some v ∧ (v = 0 ∨ v = -1) ∧
      n ≤ NUMBER_OF_CUSTOMERS := by
  obtain ⟨v, n, h1, h2, h3, h4⟩ := whileLoopPasses_spec _ _ _ (NUMBER_OF_CUSTOMERS + 1) _ []
    (safety_test_inv s customer_num request) (by simp)
  exact ⟨v, n, h1, h2, h3, by simpa using h4⟩

/-! ## Deadlock detection -/

/-- When no customer can proceed and the initialisation loops do not overflow,
the first pass marks nobody. -/
theorem first_pass_marks_nobody (s : Ledger) (c : Fin NUMBER_OF_CUSTOMERS) (request : Vec)
    (hblocked : ∀ i, ∃ j, s.maximum i j - s.allocation i j > s.available j - request j)
    (hinit : InitInRange s request) :
    (scanPass (initLocals blankLocals s c request)).num_satisfied = 0 := by
  obtain ⟨ext, hinv, hsat, _⟩ := scanPass_spec _ _ _ _ [] (safety_test_inv s c request)
  rw [hsat]
  cases ext with
  | nil => rfl
  | cons y rest =>
    exfalso
    have hch := hinv.2.1
    simp only [List.nil_append, MChain] at hch
    obtain ⟨j, hj⟩ := hblocked y
    have h1 := hch.1 j
    rw [wrapInt_of_inRange _ (hinit.1 j), wrapInt_of_inRange _ (hinit.2 y j)] at h1
    omega

/-- C17 (counterexample): in the ledger `minAvailable` with the request
`[1,0,0]` every customer has `maximum[i][0] - allocation[i][0] = 0` above
`available[0] - request[0] = INT_MIN - 1`, yet `safety_test` returns 0:
`temp_available[0]` overflows to `INT_MAX`. -/
theorem blocked_customers_safe_on_overflow :
    (∀ i, ∃ j, minAvailable.maximum i j - minAvailable.allocation i j >
        minAvailable.available j - vec3 1 0 0 j) ∧
      safety_test minAvailable 0 (vec3 1 0 0) = some 0 :=
  ⟨by decide, by decide⟩

/-- C17 (amended): when every customer has a resource `j` with
`maximum[i][j] - allocation[i][j] > available[j] - request[j]` and the
initialisation loops of `safety_test` do not overflow, `safety_test` returns
-1; and it returns -1 in the deadlock scenario of the specification (available
[0,2], client 0 needing [2,2], client 1 needing [1,0], the rest zero). -/
theorem deadlock_detected (s : Ledger) (customer_num : Fin NUMBER_OF_CUSTOMERS) (request : Vec) :
    ((∀ i, ∃ j, s.maximum i j - s.allocation i j > s.available j - request j) →
        InitInRange s request → safety_test s customer_num request = some (-1)) ∧
      safety_test deadlockScenario customer_num zeroVec = some (-1) := by
  constructor
  · intro hblocked hinit
    have h0 := first_pass_marks_nobody s customer_num request hblocked hinit
    have hnum : (initLocals blankLocals s customer_num request).num_finished = 0 :=
      (initLocals_eq blankLocals s customer_num request).2.2.2
    unfold safety_test whileLoop
    simp [hnum, h0]
  · rw [← safety_test_from_any_locals blankLocals deadlockScenario customer_num zeroVec]
    have h := safety_test_from_any_locals blankLocals deadlockScenario 0 zeroVec
    have hc : whileLoop (NUMBER_OF_CUSTOMERS + 1)
        (initLocals blankLocals deadlockScenario customer_num zeroVec) =
        whileLoop (NUMBER_OF_CUSTOMERS + 1) (initLocals blankLocals deadlockScenario 0 zeroVec) := by
      obtain ⟨a1, a2, a3, a4⟩ := initLocals_eq blankLocals deadlockScenario customer_num zeroVec
      obtain ⟨b1, b2, b3, b4⟩ := initLocals_eq blankLocals deadlockScenario 0 zeroVec
      exact whileLoop_congr _ _ _ (a1.trans b1.symm) (a3.trans b3.symm) (a2.trans b2.symm)
        (a4.trans b4.symm)
    rw [hc, h]
    decide

theorem deadlock_detected_witness :
    (∀ i, ∃ j, blockedLedger.maximum i j - blockedLedger.allocation i j >
        blockedLedger.available j - zeroVec j) ∧
      InitInRange blockedLedger zeroVec ∧
      safety_test blockedLedger 0 zeroVec = some (-1) :=
  ⟨by decide, by decide, (deadlock_detected blockedLedger 0 zeroVec).1 (by decide) (by decide)⟩

/-! ## The customer loop -/

theorem drawAmount_bounds (bound rnd : Int) (hb : 0 ≤ bound) (hr : 0 ≤ rnd) :
    0 ≤ drawAmount bound rnd ∧ drawAmount bound rnd ≤ bound ∧
      (bound = 0 → drawAmount bound rnd = 0) := by
  unfold drawAmount
  by_cases h0 : bound = 0
  · simp [h0]
  · have hpos : 0 < bound := lt_of_le_of_ne hb (Ne.symm h0)
    rw [if_pos h0, Int.tmod_eq_emod hr hb]
    have h1 := Int.emod_nonneg rnd h0
    have h2 := Int.emod_lt_of_pos rnd hpos
    refine ⟨by omega, by omega, fun h => absurd h h0⟩

theorem requestLoop_apply (s : Ledger) (c : Fin NUMBER_OF_CUSTOMERS)
    (rnd : Fin NUMBER_OF_RESOURCES → Int) (resources : Vec) (r : Fin NUMBER_OF_RESOURCES) :
    requestLoop s c rnd resources r = drawAmount (s.need c r) (rnd r) := by
  have h := foldl_write (fun (v : Vec) => v)
    (fun res i => Function.update res i (drawAmount (s.need c i) (rnd i)))
    (fun i => drawAmount (s.need c i) (rnd i)) (by intro t i; rfl)
    (List.finRange NUMBER_OF_RESOURCES) resources r
  simpa [requestLoop, List.mem_finRange] using h

theorem releaseLoop_apply (s : Ledger) (c : Fin NUMBER_OF_CUSTOMERS)
    (rnd : Fin NUMBER_OF_RESOURCES → Int) (resources : Vec) (r : Fin NUMBER_OF_RESOURCES) :
    releaseLoop s c rnd resources r = drawAmount (s.allocation c r) (rnd r) := by
  have h := foldl_write (fun (v : Vec) => v)
    (fun res i => Function.update res i (drawAmount (s.allocation c i) (rnd i)))
    (fun i => drawAmount (s.allocation c i) (rnd i)) (by intro t i; rfl)
    (List.finRange NUMBER_OF_RESOURCES) resources r
  simpa [releaseLoop, List.mem_finRange] using h

/-- C18: when `need[i][r] >= 0` and `rand()` returns a non-negative value, the
amount the customer puts in entry `r` of its request lies between 0 and
`need[i][r]`, and is 0 when `need[i][r]` is 0. -/
theorem request_amount_within_need (s : Ledger) (customerNumber : Fin NUMBER_OF_CUSTOMERS)
    (rnd : Fin NUMBER_OF_RESOURCES → Int) (resources : Vec) (r : Fin NUMBER_OF_RESOURCES)
    (hneed : 0 ≤ s.need customerNumber r) (hrnd : 0 ≤ rnd r) :
    0 ≤ requestLoop s customerNumber rnd resources r ∧
      requestLoop s customerNumber rnd resources r ≤ s.need customerNumber r ∧
      (s.need customerNumber r = 0 → requestLoop s customerNumber rnd resources r = 0) := by
  rw [requestLoop_apply]
  exact drawAmount_bounds _ _ hneed hrnd

theorem request_amount_within_need_witness :
    0 ≤ scenario.need 0 1 ∧ 0 ≤ vec3 7 5 3 1 ∧
      (0 ≤ requestLoop scenario 0 (vec3 7 5 3) zeroVec 1 ∧
        requestLoop scenario 0 (vec3 7 5 3) zeroVec 1 ≤ scenario.need 0 1 ∧
        (scenario.need 0 1 = 0 → requestLoop scenario 0 (vec3 7 5 3) zeroVec 1 = 0)) :=
  ⟨by decide, by decide,
    request_amount_within_need scenario 0 (vec3 7 5 3) zeroVec 1 (by decide) (by decide)⟩

theorem customer_call_step (exceeds : Int → Bool) (s : Ledger) (call : Call)
    (hfi : FittingInvariants s) (hP : CustomerCall s call) :
    ∃ s1, afterCall exceeds s call = some s1 ∧ FittingInvariants s1 := by
  cases call with
  | request c v =>
    have hv : ∀ r, 0 ≤ v r ∧ v r ≤ s.need c r := hP
    have hreq : ∀ r, 0 ≤ v r ∧ v r ≤ INT_MAX := by
      intro r
      have h1 := hv r
      have h2 := hfi.1.2.1 c r
      have h3 := (hfi.1.1 c r).1
      have h4 := hfi.2.1 c r
      constructor <;> omega
    obtain ⟨hinit, _⟩ := fitting_request s v hfi hreq
    rcases request_resources_cases exceeds s c v with ⟨h, _⟩ | ⟨h, _, hsafe⟩
    · exact ⟨s, by simp [afterCall, h], hfi⟩
    · have hle := safety_test_zero_free s c v (fun i r => (hfi.1.1 i r).2) hinit hsafe
      rw [fitting_grant s c v hfi hreq hle] at h
      exact ⟨_, by simp [afterCall, h], fitting_grant_invariants s c v hfi hv hle⟩
  | release c v =>
    have hv : ∀ r, 0 ≤ v r ∧ v r ≤ s.allocation c r := hP
    refine ⟨_, ?_, fitting_release_invariants s c v hfi hv⟩
    simp [afterCall, release_resources, fitting_release s c v hfi hv]

/-- C19 (counterexample): the ledger `maxAvailable 0` has
`0 <= allocation <= maximum`, `need = maximum - allocation` and
`available >= 0`; client 0 releases the unit it holds, which is within its
allocation, and `available[0]` becomes `INT_MIN`. -/
theorem customer_invariants_broken_on_overflow :
    CustomerInvariants (maxAvailable 0) ∧
      CustomerCall (maxAvailable 0) (Call.release 0 (vec3 1 0 0)) ∧
      (release_resources (maxAvailable 0) 0 (vec3 1 0 0)).2.available 0 = INT_MIN ∧
      ¬ CustomerInvariants (release_resources (maxAvailable 0) 0 (vec3 1 0 0)).2 :=
  ⟨by decide, by decide, by decide, by decide⟩

/-- C19 (amended): on a ledger with `0 <= allocation <= maximum`,
`need = maximum - allocation` and `available >= 0` that fits the `int` type
(every `maximum` entry and every resource's units are at most `INT_MAX`), the
three conditions hold again, and the ledger still fits, after `request_resources`
with `0 <= request[r] <= need[c][r]` (granted or denied) and after
`release_resources` with `0 <= release[r] <= allocation[c][r]`; they hold after
every call of a sequence of such calls; and the vectors the customer loop draws
have that shape. -/
theorem customer_invariants_preserved (exceeds : Int → Bool) (s : Ledger)
    (c : Fin NUMBER_OF_CUSTOMERS) (v : Vec) (hinv : CustomerInvariants s)
    (hfit : LedgerFits s) :
    ((∀ r, 0 ≤ v r ∧ v r ≤ s.need c r) →
        ∃ res s1, request_resources exceeds s c v = some (res, s1) ∧ (res = 0 ∨ res = -1) ∧
          CustomerInvariants s1 ∧ LedgerFits s1) ∧
      ((∀ r, 0 ≤ v r ∧ v r ≤ s.allocation c r) →
        (release_resources s c v).1 = 0 ∧ CustomerInvariants (release_resources s c v).2 ∧
          LedgerFits (release_resources s c v).2) ∧
      (∀ calls, CallsWithin CustomerCall exceeds s calls →
        ∃ l, runCalls exceeds s calls = some l ∧ l.length = calls.length ∧
          ∀ s1 ∈ l, CustomerInvariants s1 ∧ LedgerFits s1) ∧
      (∀ rnd resources, (∀ r, 0 ≤ rnd r) →
        CustomerCall s (Call.request c (requestLoop s c rnd resources)) ∧
          CustomerCall s (Call.release c (releaseLoop s c rnd resources))) := by
  have hfi : FittingInvariants s := ⟨hinv, hfit⟩
  refine ⟨?_, ?_, ?_, ?_⟩
  · intro hv
    obtain ⟨s1, h1, h2⟩ := customer_call_step exceeds s (Call.request c v) hfi hv
    rcases request_resources_cases exceeds s c v with ⟨h, _⟩ | ⟨h, _, _⟩
    · refine ⟨-1, s, h, Or.inr rfl, hinv, hfit⟩
    · refine ⟨0, _, h, Or.inl rfl, ?_⟩
      have : afterCall exceeds s (Call.request c v) =
          some ((List.finRange NUMBER_OF_RESOURCES).foldl (grantStep c v) s) := by
        simp [afterCall, h]
      rw [this] at h1
      have hs : (List.finRange NUMBER_OF_RESOURCES).foldl (grantStep c v) s = s1 := by
        simpa using h1
      rw [hs]
      exact h2
  · intro hv
    obtain ⟨s1, h1, h2⟩ := customer_call_step exceeds s (Call.release c v) hfi hv
    have hs : (release_resources s c v).2 = s1 := by
      simpa [afterCall] using h1
    exact ⟨rfl, hs ▸ h2⟩
  · intro calls hcalls
    exact runCalls_invariant exceeds CustomerCall FittingInvariants
      (customer_call_step exceeds) calls s hfi hcalls
  · intro rnd resources hrnd
    obtain ⟨halloc, hneed, _⟩ := hinv
    constructor
    · intro r
      have hn : 0 ≤ s.need c r := by
        have h1 := hneed c r
        have h2 := halloc c r
        omega
      rw [requestLoop_apply]
      have := drawAmount_bounds (s.need c r) (rnd r) hn (hrnd r)
      exact ⟨this.1, this.2.1⟩
    · intro r
      rw [releaseLoop_apply]
      have := drawAmount_bounds (s.allocation c r) (rnd r) (halloc c r).1 (hrnd r)
      exact ⟨this.1, this.2.1⟩

theorem customer_invariants_preserved_witness :
    CustomerInvariants scenario ∧ LedgerFits scenario ∧
      (∀ r, 0 ≤ vec3 1 0 0 r ∧ vec3 1 0 0 r ≤ scenario.allocation 0 r) ∧
      ((release_resources scenario 0 (vec3 1 0 0)).1 = 0 ∧
        CustomerInvariants (release_resources scenario 0 (vec3 1 0 0)).2 ∧
        LedgerFits (release_resources scenario 0 (vec3 1 0 0)).2) :=
  ⟨by decide, by decide, by decide,
    (customer_invariants_preserved (exceedsAddress sampleAddress) scenario 0 (vec3 1 0 0)
      (by decide) (by decide)).2.1 (by decide)⟩

/-- C20: the value `safety_test` returns depends neither on `customer_num` nor
on the stored `need` matrix: the state it simulates is `available - request`,
the unmodified `allocation` and `maximum - allocation`, both differences
computed in `int` arithmetic and exact when representable, the write of the
request into row `customer_num` of `temp_allocation` being overwritten. -/
theorem safety_test_ignores_customer_and_need (s : Ledger) (c1 c2 : Fin NUMBER_OF_CUSTOMERS)
    (request : Vec) (need1 : Mat) :
    safety_test s c1 request = safety_test s c2 request ∧
      safety_test { s with need := need1 } c1 request = safety_test s c1 request ∧
      (initLocals blankLocals s c1 request).temp_available =
        (fun j => wrapInt (s.available j - request j)) ∧
      (initLocals blankLocals s c1 request).temp_allocation = s.allocation ∧
      (initLocals blankLocals s c1 request).temp_need =
        (fun i j => wrapInt (s.maximum i j - s.allocation i j)) ∧
      (InitInRange s request →
        (initLocals blankLocals s c1 request).temp_available =
            (fun j => s.available j - request j) ∧
          (initLocals blankLocals s c1 request).temp_need =
            (fun i j => s.maximum i j - s.allocation i j)) := by
  obtain ⟨a1, a2, a3, a4⟩ := initLocals_eq blankLocals s c1 request
  obtain ⟨b1, b2, b3, b4⟩ := initLocals_eq blankLocals s c2 request
  obtain ⟨d1, d2, d3, d4⟩ := initLocals_eq blankLocals { s with need := need1 } c1 request
  refine ⟨?_, ?_, a1, a2, a3, ?_⟩
  · unfold safety_test
    exact whileLoop_congr _ _ _ (a1.trans b1.symm) (a3.trans b3.symm) (a2.trans b2.symm)
      (a4.trans b4.symm)
  · unfold safety_test
    exact whileLoop_congr _ _ _ (d1.trans a1.symm) (d3.trans a3.symm) (d2.trans a2.symm)
      (d4.trans a4.symm)
  · intro hinit
    obtain ⟨e1, e2⟩ := init_exact s request hinit
    exact ⟨a1.trans e1, a3.trans e2⟩

end Bankers
